import Mathlib

/-!
Verification of the insertion-order-preserving hash map in
src/linked_hashmap.hpp (class sjtu::linked_hashmap).

The container is modelled arena-style: every allocated entry node lives at a
fixed index of the arena `nodes` (node ids are never reused, mirroring the
fact that a C++ node never moves once allocated), the bucket table `buckets`
holds, per bucket, the chain of node ids linked through next_in_bucket
(head of the chain first), and `order` is the intrusive doubly linked
insertion-order list written out as the sequence of node ids from
order_head->order_next up to (but excluding) order_tail.  The two sentinel
nodes of the source are not data and are represented implicitly: the list
`order` is exactly what lies strictly between them.

Keys and mapped values are instantiated at Nat; the Hash functor is an
explicit function argument `h : Nat → Nat` (the same function is passed to
every operation of one map, as the member `hasher` is in the source), and
Equal is Nat equality.  Iterators carry the referenced node and the identity
of their owning container (`map_ptr`); container identity is modelled by the
`cid` field.  Code paths that are undefined behavior in the C++ source
(following a null pointer, reading a freed or foreign node, scanning a chain
that does not contain the sought node) are modelled by the explicit outcome
`IterOutcome.ub`, kept distinct from a raised exception.
-/

namespace LinkedHashmap

/-- One entry node: the stored key/value pair (struct Node's `data` field).
The chain and order links of the C++ node are represented by the node id's
position in `buckets` and `order` respectively. -/
structure Node where
  key : Nat
  val : Nat
deriving DecidableEq, Repr, Inhabited

/-- The state of one linked_hashmap object. -/
structure LHM where
  nodes : List Node
  buckets : List (List Nat)
  order : List Nat
  bucket_capacity : Nat
  num_elements : Nat
  cid : Nat
deriving DecidableEq, Repr, Inhabited

/-- The two exception kinds of the collaborator exceptions.hpp that the
container throws. -/
inductive MapError where
  | index_out_of_bound
  | invalid_iterator
deriving DecidableEq, Repr

/-- A LinkNode pointer as stored in an iterator: null, one of the two
sentinels of the container with identity `cid`, or an entry node. -/
inductive NodeRef where
  | null : NodeRef
  | sent (cid : Nat) (isTail : Bool) : NodeRef
  | entry (id : Nat) : NodeRef
deriving DecidableEq, Repr

/-- An iterator: the referenced node and the owning-container pointer
(`map_ptr`; `none` models a null map pointer, as in a default-constructed
iterator). -/
structure Iter where
  node : NodeRef
  mapId : Option Nat
deriving DecidableEq, Repr

/-- Outcome of an operation that can throw or run into undefined behavior:
a normal result, a thrown exception, or undefined behavior of the source. -/
inductive IterOutcome (α : Type) where
  | ok (a : α) : IterOutcome α
  | err (e : MapError) : IterOutcome α
  | ub : IterOutcome α
deriving DecidableEq, Repr

/-- Return value of insert: pair of the returned iterator's node id and the
inserted flag, together with the updated map (the receiver object). -/
structure InsertResult where
  map : LHM
  pos : Nat
  inserted : Bool
deriving DecidableEq, Repr

/-- Chain of node ids at bucket `i` (buckets[i]). -/
def chainAt (m : LHM) (i : Nat) : List Nat := m.buckets.getD i []

/-- Key stored at node id `id` (node->data.first). -/
def nodeKey (m : LHM) (id : Nat) : Nat := (m.nodes.getD id default).key

/-- Mapped value stored at node id `id` (node->data.second). -/
def nodeVal (m : LHM) (id : Nat) : Nat := (m.nodes.getD id default).val

/-- The key/value pairs in iteration (= insertion) order. -/
def entriesOf (m : LHM) : List (Nat × Nat) :=
  m.order.map (fun id => (nodeKey m id, nodeVal m id))

/-- The keys in iteration (= insertion) order. -/
def keysOf (m : LHM) : List Nat := m.order.map (nodeKey m)

/-- static const size_t INIT_CAPACITY = 16. -/
def INIT_CAPACITY : Nat := 16

/-- A map with an empty order list and `cap` empty buckets, as set up by the
constructors (the default constructor uses cap = INIT_CAPACITY, the copy
constructor and copy assignment use the source's capacity). -/
def emptyWithCap (cap cid : Nat) : LHM :=
  { nodes := [], buckets := List.replicate cap [], order := [],
    bucket_capacity := cap, num_elements := 0, cid := cid }

/-- The default-constructed map (bucket_capacity = INIT_CAPACITY = 16). -/
def emptyMap (cid : Nat) : LHM := emptyWithCap INIT_CAPACITY cid

/-- The chain scan of find: walk next_in_bucket links, return the first node
whose key equals `k` (by the Equal predicate), or null. -/
def findChain (nodes : List Node) (k : Nat) : List Nat → Option Nat
  | [] => none
  | p :: rest =>
    if (nodes.getD p default).key = k then some p else findChain nodes k rest

/-- linked_hashmap::find: scan the chain at bucket hash(key) % capacity.
`some p` models the iterator to node p, `none` models the past-the-end
iterator returned when the key is absent. -/
def find (h : Nat → Nat) (m : LHM) (k : Nat) : Option Nat :=
  findChain m.nodes k (chainAt m (h k % m.bucket_capacity))

/-- The rehash loop: walk the order list head to tail and prepend each live
node to the head of its chain under the new capacity
(cur->next_in_bucket = new_buckets[idx]; new_buckets[idx] = cur). -/
def distribute (h : Nat → Nat) (cap : Nat) (nodes : List Node) :
    List Nat → List (List Nat) → List (List Nat)
  | [], bs => bs
  | id :: rest, bs =>
    distribute h cap nodes rest
      (bs.set (h (nodes.getD id default).key % cap)
        (id :: bs.getD (h (nodes.getD id default).key % cap) []))

/-- linked_hashmap::rehash: double the capacity and relink every live entry
into the new bucket table; entry nodes, the order list and the element count
are not touched. -/
def rehash (h : Nat → Nat) (m : LHM) : LHM :=
  { m with
    bucket_capacity := m.bucket_capacity * 2,
    buckets := distribute h (m.bucket_capacity * 2) m.nodes m.order
      (List.replicate (m.bucket_capacity * 2) []) }

/-- The allocation part of insert: create the node (its id is the next fresh
arena index), prepend it to its chain head, link it immediately before the
tail sentinel of the order list (i.e. append it to `order`), and increment
num_elements. -/
def addNode (h : Nat → Nat) (m : LHM) (k v : Nat) : LHM :=
  { m with
    nodes := m.nodes ++ [{ key := k, val := v }],
    buckets := m.buckets.set (h k % m.bucket_capacity)
      (m.nodes.length :: chainAt m (h k % m.bucket_capacity)),
    order := m.order ++ [m.nodes.length],
    num_elements := m.num_elements + 1 }

/-- linked_hashmap::insert.  If find succeeds the map is returned untouched
with the found node and flag false.  Otherwise the table is grown first
exactly when num_elements + 1 > bucket_capacity * 0.75; since the capacity
is a power of two, capacity * 0.75 is computed exactly by the double
arithmetic of the source and the comparison is equivalent to
3 * capacity < 4 * (num_elements + 1) over the integers. -/
def insert (h : Nat → Nat) (m : LHM) (k v : Nat) : InsertResult :=
  match find h m k with
  | some p => ⟨m, p, false⟩
  | none =>
    let m1 := if 3 * m.bucket_capacity < 4 * (m.num_elements + 1)
      then rehash h m else m
    ⟨addNode h m1 k v, m1.nodes.length, true⟩

/-- Fold a sequence of insert calls (discarding the returned iterator/flag
pairs) over a starting map. -/
def insertList (h : Nat → Nat) (m : LHM) (l : List (Nat × Nat)) : LHM :=
  l.foldl (fun acc e => (insert h acc e.1 e.2).map) m

/-- linked_hashmap::at (named atKey because `at` is reserved in Lean):
find the key; if absent throw index_out_of_bound, else return the mapped
value (it->second).  The operation is const: it returns no updated map. -/
def atKey (h : Nat → Nat) (m : LHM) (k : Nat) : Except MapError Nat :=
  match find h m k with
  | none => .error .index_out_of_bound
  | some p => .ok (nodeVal m p)

/-- The const overload of operator[]: the source simply returns at(key). -/
def opIndexConst (h : Nat → Nat) (m : LHM) (k : Nat) : Except MapError Nat :=
  atKey h m k

/-- The mutating overload of operator[]: find the key; if present return a
reference to the existing value, else insert the key with a
default-constructed value T() (modelled by 0) and return a reference to the
fresh value.  The returned reference is modelled by the node id whose val
field it designates, paired with the (possibly updated) map. -/
def opIndex (h : Nat → Nat) (m : LHM) (k : Nat) : LHM × Nat :=
  match find h m k with
  | some p => (m, p)
  | none =>
    let r := insert h m k 0
    (r.map, r.pos)

/-- Writing through a reference to a mapped value (ref = v): replace the val
field of the designated node, keeping its key. -/
def setValue (m : LHM) (id : Nat) (v : Nat) : LHM :=
  { m with nodes := m.nodes.set id { m.nodes.getD id default with val := v } }

/-- linked_hashmap::size. -/
def mapSize (m : LHM) : Nat := m.num_elements

/-- linked_hashmap::empty (num_elements == 0). -/
def mapEmpty (m : LHM) : Bool := m.num_elements == 0

/-- linked_hashmap::clear: destroy every live entry, reset the order list to
the empty head/tail state and null every chain head; the bucket capacity is
kept. -/
def clearMap (m : LHM) : LHM :=
  { m with order := [], buckets := List.replicate m.bucket_capacity [],
           num_elements := 0 }

/-- The chain unlink scan of erase: drop the first occurrence of `id` from
the chain (prev/next_in_bucket relinking).  The source's scan assumes the
node is present in the chain; the caller (erase) only reaches it in that
case. -/
def removeFromChain (id : Nat) : List Nat → List Nat
  | [] => []
  | p :: rest => if p = id then rest else p :: removeFromChain id rest

/-- linked_hashmap::erase.  Throws invalid_iterator when the iterator's
map_ptr is not this container or its node is null, or when its node is one
of this container's two sentinels.  On an entry node the chain scan, the
order-list unlink and the count decrement are performed.  If the entry node
is not linked in the expected chain (a freed or foreign node), the source's
scan runs off the end of the chain and dereferences null: undefined
behavior, modelled by .ub (likewise for a foreign sentinel read as a data
node). -/
def erase (h : Nat → Nat) (m : LHM) (pos : Iter) : IterOutcome LHM :=
  if pos.mapId ≠ some m.cid ∨ pos.node = NodeRef.null then
    .err .invalid_iterator
  else if pos.node = NodeRef.sent m.cid true ∨ pos.node = NodeRef.sent m.cid false then
    .err .invalid_iterator
  else
    match pos.node with
    | NodeRef.entry id =>
      if id ∈ chainAt m (h (nodeKey m id) % m.bucket_capacity) then
        .ok { m with
          buckets := m.buckets.set (h (nodeKey m id) % m.bucket_capacity)
            (removeFromChain id
              (chainAt m (h (nodeKey m id) % m.bucket_capacity))),
          order := m.order.erase id,
          num_elements := m.num_elements - 1 }
      else .ub
    | _ => .ub

/-- linked_hashmap::count. -/
def countKey (h : Nat → Nat) (m : LHM) (k : Nat) : Nat :=
  match find h m k with
  | some _ => 1
  | none => 0

/-- The node referenced by begin(): order_head->order_next, i.e. the first
live entry, or the tail sentinel when the map is empty. -/
def firstRef (m : LHM) : NodeRef :=
  match m.order with
  | [] => NodeRef.sent m.cid true
  | id :: _ => NodeRef.entry id

/-- The element right after `id` in the list, if any. -/
def succAfter : List Nat → Nat → Option Nat
  | [], _ => none
  | a :: rest, id => if a = id then rest.head? else succAfter rest id

/-- The element right before `id` in the list, if any. -/
def predBefore : List Nat → Nat → Option Nat
  | [], _ => none
  | a :: rest, id => if rest.head? = some id then some a else predBefore rest id

/-- Following node->order_next from a node of map `m`: from the head
sentinel to the first entry (or tail), from an entry to the next entry (or
tail), from the tail sentinel to null (the field is never set).  Following
the pointer of a freed node or of a node of another container is undefined
(none). -/
def orderNextRef (m : LHM) : NodeRef → Option NodeRef
  | NodeRef.null => none
  | NodeRef.sent c false =>
    if c = m.cid then some (firstRef m) else none
  | NodeRef.sent c true =>
    if c = m.cid then some NodeRef.null else none
  | NodeRef.entry id =>
    if id ∈ m.order then
      some (match succAfter m.order id with
        | some j => NodeRef.entry j
        | none => NodeRef.sent m.cid true)
    else none

/-- Following node->order_prev, symmetrically. -/
def orderPrevRef (m : LHM) : NodeRef → Option NodeRef
  | NodeRef.null => none
  | NodeRef.sent c false =>
    if c = m.cid then some NodeRef.null else none
  | NodeRef.sent c true =>
    if c = m.cid then
      some (match m.order.getLast? with
        | some j => NodeRef.entry j
        | none => NodeRef.sent m.cid false)
    else none
  | NodeRef.entry id =>
    if id ∈ m.order then
      some (match predBefore m.order id with
        | some j => NodeRef.entry j
        | none => NodeRef.sent m.cid false)
    else none

/-- linked_hashmap::begin(). -/
def beginIter (m : LHM) : Iter := ⟨firstRef m, some m.cid⟩

/-- linked_hashmap::end(): the tail sentinel. -/
def endIter (m : LHM) : Iter := ⟨NodeRef.sent m.cid true, some m.cid⟩

/-- The iterator returned by find. -/
def findIter (h : Nat → Nat) (m : LHM) (k : Nat) : Iter :=
  match find h m k with
  | some p => ⟨NodeRef.entry p, some m.cid⟩
  | none => endIter m

/-- iterator::operator++ (both forms advance the same way): throw
invalid_iterator when map_ptr or node is null or when node is the claimed
container's tail sentinel (node == map_ptr->order_tail); otherwise follow
node->order_next.  Modelled for iterators whose claimed container, when it
is dereferenced by the check, is `m`. -/
def iterNext (m : LHM) (pos : Iter) : IterOutcome Iter :=
  match pos.mapId with
  | none => .err .invalid_iterator
  | some c =>
    if pos.node = NodeRef.null then .err .invalid_iterator
    else if pos.node = NodeRef.sent c true then .err .invalid_iterator
    else
      match orderNextRef m pos.node with
      | some n2 => .ok ⟨n2, pos.mapId⟩
      | none => .ub

/-- iterator::operator-- : throw invalid_iterator when map_ptr or node is
null or when node is the claimed container's first entry
(node == map_ptr->order_head->order_next); otherwise follow
node->order_prev.  Modelled for iterators claiming container `m`. -/
def iterPrev (m : LHM) (pos : Iter) : IterOutcome Iter :=
  match pos.mapId with
  | none => .err .invalid_iterator
  | some c =>
    if pos.node = NodeRef.null then .err .invalid_iterator
    else if c = m.cid then
      if pos.node = firstRef m then .err .invalid_iterator
      else
        match orderPrevRef m pos.node with
        | some n2 => .ok ⟨n2, pos.mapId⟩
        | none => .ub
    else .ub

/-- iterator::operator* : throw invalid_iterator when map_ptr or node is
null or node is one of the claimed container's sentinels
(node == map_ptr->order_tail || node == map_ptr->order_head); otherwise
return the node's data — for a live entry of `m` its pair, for anything
else (a freed node, or a node or sentinel of a different container) an
undefined read. -/
def opStar (m : LHM) (pos : Iter) : IterOutcome Node :=
  match pos.mapId with
  | none => .err .invalid_iterator
  | some c =>
    if pos.node = NodeRef.null ∨ pos.node = NodeRef.sent c true ∨
        pos.node = NodeRef.sent c false then
      .err .invalid_iterator
    else
      match pos.node with
      | NodeRef.entry id =>
        if id ∈ m.order then .ok (m.nodes.getD id default) else .ub
      | _ => .ub

/-- iterator::operator-> : the source performs no validation whatsoever
(it is declared noexcept and returns the data pointer unconditionally), so
no exception can be raised; on a null iterator, a sentinel, a freed node or
a foreign node the resulting access is undefined behavior. -/
def opArrow (m : LHM) (pos : Iter) : IterOutcome Node :=
  match pos.node with
  | NodeRef.entry id =>
    if id ∈ m.order then .ok (m.nodes.getD id default) else .ub
  | _ => .ub

/-- Project the map out of a non-throwing erase outcome (default `d` is
never used on the paths the theorems take). -/
def outMap (o : IterOutcome LHM) (d : LHM) : LHM :=
  match o with
  | .ok x => x
  | _ => d

/-- Did the outcome complete normally? -/
def isOk {α : Type} (o : IterOutcome α) : Bool :=
  match o with
  | .ok _ => true
  | _ => false

/-- Iterate the order list by repeatedly following order_next from a start
node, collecting the visited entry ids, with explicit fuel (the source loop
terminates because the order list is finite and acyclic). -/
def traverse (m : LHM) : Nat → NodeRef → List Nat
  | 0, _ => []
  | fuel + 1, r =>
    match r with
    | NodeRef.entry id =>
      id :: (match orderNextRef m (NodeRef.entry id) with
        | some r2 => traverse m fuel r2
        | none => [])
    | _ => []

/-- The mapped value find yields for a key, if any. -/
def lookupVal (h : Nat → Nat) (m : LHM) (k : Nat) : Option Nat :=
  (find h m k).map (nodeVal m)

/-- The copy constructor: a fresh container with the source's bucket
capacity, filled by re-inserting every source entry in the source's
insertion order (for (it = other.cbegin(); it != other.cend(); ++it)
insert(*it)).  `cid` is the identity of the new object. -/
def copyCtor (h : Nat → Nat) (other : LHM) (cid : Nat) : LHM :=
  insertList h (emptyWithCap other.bucket_capacity cid) (entriesOf other)

/-- Copy assignment: a no-op on self-assignment (this == &other, i.e. equal
container identity); otherwise the receiver is cleared, its storage
released, and it is rebuilt exactly like the copy constructor, keeping its
own identity. -/
def assign (h : Nat → Nat) (m other : LHM) : LHM :=
  if m.cid = other.cid then m else copyCtor h other m.cid

/-- The scenario of claim C9: insert A, B, C into a fresh map, erase B
through the iterator find returns for it, then insert B again. -/
def scenarioACB (h : Nat → Nat) (cid A B C vA vB vC vB2 : Nat) : LHM :=
  let m3 := insertList h (emptyWithCap 16 cid) [(A, vA), (B, vB), (C, vC)]
  let m4 := outMap (erase h m3 (findIter h m3 B)) m3
  (insert h m4 B vB2).map

/-- Structural well-formedness of a map state, maintained by every public
operation: the bucket array has exactly bucket_capacity chains,
num_elements counts the order list, every live id is an allocated arena
index, keys along the order list are pairwise distinct, and the chains
partition the live ids by hash(key) % capacity without duplicates. -/
structure WF (h : Nat → Nat) (m : LHM) : Prop where
  cap_pos : 0 < m.bucket_capacity
  buckets_len : m.buckets.length = m.bucket_capacity
  count_eq : m.num_elements = m.order.length
  ids_lt : ∀ id ∈ m.order, id < m.nodes.length
  keys_nodup : (keysOf m).Nodup
  chain_sub : ∀ i < m.bucket_capacity, ∀ id ∈ chainAt m i,
    id ∈ m.order ∧ h (nodeKey m id) % m.bucket_capacity = i
  order_sub : ∀ id ∈ m.order,
    id ∈ chainAt m (h (nodeKey m id) % m.bucket_capacity)
  chain_nodup : ∀ i < m.bucket_capacity, (chainAt m i).Nodup

/-- The bucket capacity is a power of two obtained from INIT_CAPACITY = 16
by doubling. -/
def CapOk (m : LHM) : Prop := ∃ k, m.bucket_capacity = INIT_CAPACITY * 2 ^ k

/-- The load-factor invariant num_elements ≤ bucket_capacity * 0.75,
written exactly over the integers. -/
def LoadOk (m : LHM) : Prop := 4 * m.num_elements ≤ 3 * m.bucket_capacity

/-- The iterator states obtainable from container `m` and from other
containers through the public interface: a default-constructed (null)
iterator, any iterator of a different container, or an iterator of `m`
referencing one of its sentinels or a live entry. -/
def apiIter (m : LHM) (pos : Iter) : Prop :=
  (pos.node = NodeRef.null ∧ pos.mapId = none) ∨
  pos.mapId ≠ some m.cid ∨
  (pos.mapId = some m.cid ∧
    (pos.node = NodeRef.sent m.cid true ∨ pos.node = NodeRef.sent m.cid false ∨
      ∃ id ∈ m.order, pos.node = NodeRef.entry id))

/-- Map states reachable through the public interface. -/
inductive Reachable (h : Nat → Nat) : LHM → Prop where
  | empty (cid : Nat) : Reachable h (emptyMap cid)
  | insert_step (m : LHM) (k v : Nat) : Reachable h m →
      Reachable h (insert h m k v).map
  | erase_step (m m2 : LHM) (pos : Iter) : Reachable h m →
      erase h m pos = .ok m2 → Reachable h m2
  | index_step (m : LHM) (k : Nat) : Reachable h m →
      Reachable h (opIndex h m k).1
  | set_step (m : LHM) (id v : Nat) : Reachable h m →
      Reachable h (setValue m id v)
  | clear_step (m : LHM) : Reachable h m → Reachable h (clearMap m)
  | copy_step (other : LHM) (cid : Nat) : Reachable h other →
      Reachable h (copyCtor h other cid)
  | assign_step (m other : LHM) : Reachable h m → Reachable h other →
      Reachable h (assign h m other)

/-- The identity hash used by the concrete witness instances. -/
def hId : Nat → Nat := fun x => x

/-- Concrete witness map: the single entry 5 ↦ 50. -/
def M1 : LHM := (insert hId (emptyMap 0) 5 50).map

/-- Concrete witness map: entries 5 ↦ 50 then 7 ↦ 70, in that order. -/
def M2 : LHM := (insert hId M1 7 70).map

/-! List access helper lemmas. -/

theorem getD_append_of_lt {α : Type} (d : α) :
    ∀ (l l2 : List α) (i : Nat), i < l.length →
      (l ++ l2).getD i d = l.getD i d
  | [], _, i, hi => absurd hi (by simp)
  | _ :: _, _, 0, _ => rfl
  | _ :: l, l2, i + 1, hi =>
    getD_append_of_lt d l l2 i (Nat.lt_of_succ_lt_succ (by simpa using hi))

theorem getD_append_len {α : Type} (d : α) :
    ∀ (l : List α) (x : α), (l ++ [x]).getD l.length d = x
  | [], _ => rfl
  | _ :: l, x => getD_append_len d l x

theorem getD_set_self {α : Type} (d x : α) :
    ∀ (l : List α) (i : Nat), i < l.length → (l.set i x).getD i d = x
  | [], i, hi => absurd hi (by simp)
  | _ :: _, 0, _ => rfl
  | _ :: l, i + 1, hi =>
    getD_set_self d x l i (Nat.lt_of_succ_lt_succ (by simpa using hi))

theorem getD_set_of_ne {α : Type} (d x : α) :
    ∀ (l : List α) (i j : Nat), i ≠ j → (l.set i x).getD j d = l.getD j d
  | [], _, _, _ => by simp
  | _ :: _, 0, 0, hij => absurd rfl hij
  | _ :: _, 0, _ + 1, _ => rfl
  | _ :: _, _ + 1, 0, _ => rfl
  | _ :: l, i + 1, j + 1, hij =>
    getD_set_of_ne d x l i j (fun e => hij (by rw [e]))

theorem getD_replicate_of_lt {α : Type} (d c : α) :
    ∀ (n i : Nat), i < n → (List.replicate n c).getD i d = c
  | 0, _, hi => absurd hi (by simp)
  | _ + 1, 0, _ => rfl
  | n + 1, i + 1, hi => getD_replicate_of_lt d c n i (Nat.lt_of_succ_lt_succ hi)

/-! Properties of the chain scan. -/

theorem findChain_cons (nodes : List Node) (k a : Nat) (rest : List Nat) :
    findChain nodes k (a :: rest) =
      if (nodes.getD a default).key = k then some a
      else findChain nodes k rest := rfl

theorem findChain_some (nodes : List Node) (k : Nat) :
    ∀ (ch : List Nat) (p : Nat), findChain nodes k ch = some p →
      p ∈ ch ∧ (nodes.getD p default).key = k := by
  intro ch
  induction ch with
  | nil => intro p hp; simp [findChain] at hp
  | cons a rest ih =>
    intro p hp
    rw [findChain_cons] at hp
    by_cases ha : (nodes.getD a default).key = k
    · rw [if_pos ha] at hp
      cases hp
      exact ⟨List.mem_cons_self a rest, ha⟩
    · rw [if_neg ha] at hp
      rcases ih p hp with ⟨h1, h2⟩
      exact ⟨List.mem_cons_of_mem a h1, h2⟩

theorem findChain_none (nodes : List Node) (k : Nat) :
    ∀ (ch : List Nat), findChain nodes k ch = none →
      ∀ q ∈ ch, (nodes.getD q default).key ≠ k := by
  intro ch
  induction ch with
  | nil => intro _ q hq; simp at hq
  | cons a rest ih =>
    intro hn q hq
    rw [findChain_cons] at hn
    by_cases ha : (nodes.getD a default).key = k
    · rw [if_pos ha] at hn; cases hn
    · rw [if_neg ha] at hn
      rcases List.mem_cons.mp hq with rfl | hq2
      · exact ha
      · exact ih hn q hq2

theorem findChain_cons_self (nodes : List Node) (k : Nat) (p : Nat)
    (ch : List Nat) (hp : (nodes.getD p default).key = k) :
    findChain nodes k (p :: ch) = some p := by
  rw [findChain_cons, if_pos hp]

/-! Characterization of find under well-formedness. -/

theorem find_some_spec (h : Nat → Nat) (m : LHM) (k p : Nat) (hwf : WF h m)
    (hf : find h m k = some p) : p ∈ m.order ∧ nodeKey m p = k := by
  rcases findChain_some m.nodes k _ p hf with ⟨hmem, hkey⟩
  have hidx : h k % m.bucket_capacity < m.bucket_capacity :=
    Nat.mod_lt _ hwf.cap_pos
  rcases hwf.chain_sub _ hidx p hmem with ⟨ho, _⟩
  exact ⟨ho, hkey⟩

theorem find_none_spec (h : Nat → Nat) (m : LHM) (k : Nat) (hwf : WF h m)
    (hf : find h m k = none) : k ∉ keysOf m := by
  intro hk
  rcases List.mem_map.mp hk with ⟨id, hid, hkey⟩
  have := hwf.order_sub id hid
  rw [hkey] at this
  exact findChain_none m.nodes k _ hf id this hkey

theorem find_isSome_iff (h : Nat → Nat) (m : LHM) (k : Nat) (hwf : WF h m) :
    (find h m k).isSome = true ↔ k ∈ keysOf m := by
  constructor
  · intro hs
    rcases Option.isSome_iff_exists.mp hs with ⟨p, hp⟩
    rcases find_some_spec h m k p hwf hp with ⟨ho, hk⟩
    exact List.mem_map.mpr ⟨p, ho, hk⟩
  · intro hk
    cases hf : find h m k with
    | some p => rfl
    | none => exact absurd hk (find_none_spec h m k hwf hf)

/-- Among the live ids of a well-formed map, the stored key determines the
id (keys along the order list are pairwise distinct). -/
theorem live_id_unique (h : Nat → Nat) (m : LHM) (hwf : WF h m)
    {p q : Nat} (hp : p ∈ m.order) (hq : q ∈ m.order)
    (hk : nodeKey m p = nodeKey m q) : p = q :=
  List.inj_on_of_nodup_map hwf.keys_nodup hp hq hk

theorem find_eq_some_of_mem (h : Nat → Nat) (m : LHM) (hwf : WF h m)
    {p : Nat} (hp : p ∈ m.order) : find h m (nodeKey m p) = some p := by
  cases hf : find h m (nodeKey m p) with
  | none =>
    exact absurd (List.mem_map.mpr ⟨p, hp, rfl⟩)
      (find_none_spec h m _ hwf hf)
  | some q =>
    rcases find_some_spec h m _ q hwf hf with ⟨hqo, hqk⟩
    rw [live_id_unique h m hwf hqo hp hqk]

/-! Properties of the rehash relinking loop. -/

theorem distribute_cons (h : Nat → Nat) (cap : Nat) (nodes : List Node)
    (id : Nat) (rest : List Nat) (bs : List (List Nat)) :
    distribute h cap nodes (id :: rest) bs =
      distribute h cap nodes rest
        (bs.set (h (nodes.getD id default).key % cap)
          (id :: bs.getD (h (nodes.getD id default).key % cap) [])) := rfl

theorem distribute_length (h : Nat → Nat) (cap : Nat) (nodes : List Node) :
    ∀ (l : List Nat) (bs : List (List Nat)),
      (distribute h cap nodes l bs).length = bs.length
  | [], _ => rfl
  | id :: rest, bs => by
    rw [distribute_cons, distribute_length h cap nodes rest, List.length_set]

theorem mem_distribute (h : Nat → Nat) (cap : Nat) (nodes : List Node)
    (hcap : 0 < cap) :
    ∀ (l : List Nat) (bs : List (List Nat)), bs.length = cap →
      ∀ (i id : Nat), (id ∈ (distribute h cap nodes l bs).getD i [] ↔
        (id ∈ bs.getD i [] ∨
          (id ∈ l ∧ h (nodes.getD id default).key % cap = i))) := by
  intro l
  induction l with
  | nil => intro bs _ i id; simp [distribute]
  | cons a rest ih =>
    intro bs hlen i id
    rw [distribute_cons]
    have hidx : h (nodes.getD a default).key % cap < cap := Nat.mod_lt _ hcap
    have hidx2 : h (nodes.getD a default).key % cap < bs.length := by
      rw [hlen]; exact hidx
    rw [ih _ (by rw [List.length_set]; exact hlen) i id]
    by_cases hi : h (nodes.getD a default).key % cap = i
    · subst hi
      rw [getD_set_self _ _ _ _ hidx2]
      constructor
      · rintro (h1 | h2)
        · rcases List.mem_cons.mp h1 with rfl | h3
          · exact Or.inr ⟨List.mem_cons_self _ _, rfl⟩
          · exact Or.inl h3
        · exact Or.inr ⟨List.mem_cons_of_mem a h2.1, h2.2⟩
      · rintro (h1 | ⟨h2, h3⟩)
        · exact Or.inl (List.mem_cons_of_mem a h1)
        · rcases List.mem_cons.mp h2 with rfl | h4
          · exact Or.inl (List.mem_cons_self _ _)
          · exact Or.inr ⟨h4, h3⟩
    · rw [getD_set_of_ne _ _ _ _ _ hi]
      constructor
      · rintro (h1 | h2)
        · exact Or.inl h1
        · exact Or.inr ⟨List.mem_cons_of_mem a h2.1, h2.2⟩
      · rintro (h1 | ⟨h2, h3⟩)
        · exact Or.inl h1
        · rcases List.mem_cons.mp h2 with rfl | h4
          · exact absurd h3 hi
          · exact Or.inr ⟨h4, h3⟩

theorem nodup_distribute (h : Nat → Nat) (cap : Nat) (nodes : List Node)
    (hcap : 0 < cap) :
    ∀ (l : List Nat) (bs : List (List Nat)), bs.length = cap → l.Nodup →
      (∀ i, (bs.getD i []).Nodup) →
      (∀ i, ∀ x ∈ bs.getD i [], x ∉ l) →
      ∀ i, ((distribute h cap nodes l bs).getD i []).Nodup := by
  intro l
  induction l with
  | nil => intro bs _ _ hbs _ i; simpa [distribute] using hbs i
  | cons a rest ih =>
    intro bs hlen hnd hbs hdisj i
    rw [distribute_cons]
    have hidx2 : h (nodes.getD a default).key % cap < bs.length := by
      rw [hlen]; exact Nat.mod_lt _ hcap
    refine ih _ (by rw [List.length_set]; exact hlen)
      (List.Nodup.of_cons hnd) ?_ ?_ i
    · intro j
      by_cases hj : h (nodes.getD a default).key % cap = j
      · subst hj
        rw [getD_set_self _ _ _ _ hidx2]
        refine List.Nodup.cons ?_ (hbs _)
        intro hmem
        exact hdisj _ a hmem (List.mem_cons_self _ _)
      · rw [getD_set_of_ne _ _ _ _ _ hj]; exact hbs j
    · intro j x hx hxl
      by_cases hj : h (nodes.getD a default).key % cap = j
      · subst hj
        rw [getD_set_self _ _ _ _ hidx2] at hx
        rcases List.mem_cons.mp hx with rfl | hx2
        · exact (List.nodup_cons.mp hnd).1 hxl
        · exact hdisj _ x hx2 (List.mem_cons_of_mem a hxl)
      · rw [getD_set_of_ne _ _ _ _ _ hj] at hx
        exact hdisj j x hx (List.mem_cons_of_mem a hxl)

/-! Frame and preservation properties of rehash. -/

theorem rehash_frame (h : Nat → Nat) (m : LHM) :
    (rehash h m).nodes = m.nodes ∧ (rehash h m).order = m.order ∧
    (rehash h m).num_elements = m.num_elements ∧
    (rehash h m).cid = m.cid ∧
    (rehash h m).bucket_capacity = m.bucket_capacity * 2 :=
  ⟨rfl, rfl, rfl, rfl, rfl⟩

theorem nodeKey_rehash (h : Nat → Nat) (m : LHM) (id : Nat) :
    nodeKey (rehash h m) id = nodeKey m id := rfl

theorem entriesOf_rehash (h : Nat → Nat) (m : LHM) :
    entriesOf (rehash h m) = entriesOf m := rfl

theorem keysOf_rehash (h : Nat → Nat) (m : LHM) :
    keysOf (rehash h m) = keysOf m := rfl

theorem order_nodup_of_wf (h : Nat → Nat) (m : LHM) (hwf : WF h m) :
    m.order.Nodup := List.Nodup.of_map (nodeKey m) hwf.keys_nodup

theorem chainAt_rehash (h : Nat → Nat) (m : LHM) (hwf : WF h m)
    (i id : Nat) :
    (id ∈ chainAt (rehash h m) i ↔
      (id ∈ m.order ∧
        h (nodeKey m id) % (m.bucket_capacity * 2) = i)) := by
  have hcap2 : 0 < m.bucket_capacity * 2 :=
    Nat.mul_pos hwf.cap_pos (by norm_num)
  have := mem_distribute h (m.bucket_capacity * 2) m.nodes hcap2 m.order
    (List.replicate (m.bucket_capacity * 2) []) (by simp) i id
  rw [show chainAt (rehash h m) i =
    (distribute h (m.bucket_capacity * 2) m.nodes m.order
      (List.replicate (m.bucket_capacity * 2) [])).getD i [] from rfl, this]
  constructor
  · rintro (h1 | h2)
    · exfalso
      rcases Nat.lt_or_ge i (m.bucket_capacity * 2) with hlt | hge
      · rw [getD_replicate_of_lt _ _ _ _ hlt] at h1; simp at h1
      · rw [List.getD_eq_default] at h1
        · simp at h1
        · simpa using hge
    · exact h2
  · intro h2
    exact Or.inr h2

theorem rehash_wf (h : Nat → Nat) (m : LHM) (hwf : WF h m) :
    WF h (rehash h m) := by
  have hcap2 : 0 < m.bucket_capacity * 2 :=
    Nat.mul_pos hwf.cap_pos (by norm_num)
  refine ⟨hcap2, ?_, hwf.count_eq, hwf.ids_lt, hwf.keys_nodup, ?_, ?_, ?_⟩
  · rw [show (rehash h m).buckets =
      distribute h (m.bucket_capacity * 2) m.nodes m.order
        (List.replicate (m.bucket_capacity * 2) []) from rfl,
      distribute_length]
    simp [rehash]
  · intro i _ id hid
    have := (chainAt_rehash h m hwf i id).mp hid
    exact ⟨this.1, this.2⟩
  · intro id hid
    exact (chainAt_rehash h m hwf _ id).mpr ⟨hid, rfl⟩
  · intro i _
    exact nodup_distribute h (m.bucket_capacity * 2) m.nodes hcap2 m.order
      (List.replicate (m.bucket_capacity * 2) []) (by simp)
      (order_nodup_of_wf h m hwf)
      (fun j => by
        rcases Nat.lt_or_ge j (m.bucket_capacity * 2) with hlt | hge
        · rw [getD_replicate_of_lt _ _ _ _ hlt]; exact List.nodup_nil
        · rw [List.getD_eq_default]
          · exact List.nodup_nil
          · simpa using hge)
      (fun j x hx => by
        rcases Nat.lt_or_ge j (m.bucket_capacity * 2) with hlt | hge
        · rw [getD_replicate_of_lt _ _ _ _ hlt] at hx; simp at hx
        · rw [List.getD_eq_default] at hx
          · simp at hx
          · simpa using hge) i

theorem find_rehash (h : Nat → Nat) (m : LHM) (hwf : WF h m) (k : Nat) :
    find h (rehash h m) k = find h m k := by
  have hwf2 := rehash_wf h m hwf
  cases hf : find h m k with
  | some p =>
    rcases find_some_spec h m k p hwf hf with ⟨ho, hk⟩
    have hp2 : p ∈ (rehash h m).order := ho
    have : find h (rehash h m) (nodeKey (rehash h m) p) = some p :=
      find_eq_some_of_mem h (rehash h m) hwf2 hp2
    rw [nodeKey_rehash, hk] at this
    exact this
  | none =>
    cases hf2 : find h (rehash h m) k with
    | none => rfl
    | some q =>
      exfalso
      rcases find_some_spec h (rehash h m) k q hwf2 hf2 with ⟨hqo, hqk⟩
      have : k ∈ keysOf m :=
        List.mem_map.mpr ⟨q, hqo, by rw [← nodeKey_rehash h m q]; exact hqk⟩
      exact find_none_spec h m k hwf hf this

/-! Properties of inserting a fresh key. -/

theorem nodeKey_append_old (m : LHM) (x : Node) (id : Nat)
    (hid : id < m.nodes.length) :
    (m.nodes ++ [x]).getD id default = m.nodes.getD id default :=
  getD_append_of_lt _ _ _ _ hid

theorem chainAt_addNode_self (h : Nat → Nat) (m : LHM) (k v : Nat)
    (hwf : WF h m) :
    chainAt (addNode h m k v) (h k % m.bucket_capacity) =
      m.nodes.length :: chainAt m (h k % m.bucket_capacity) := by
  have hidx : h k % m.bucket_capacity < m.buckets.length := by
    rw [hwf.buckets_len]; exact Nat.mod_lt _ hwf.cap_pos
  exact getD_set_self _ _ _ _ hidx

theorem chainAt_addNode_other (h : Nat → Nat) (m : LHM) (k v : Nat)
    (i : Nat) (hi : h k % m.bucket_capacity ≠ i) :
    chainAt (addNode h m k v) i = chainAt m i :=
  getD_set_of_ne _ _ _ _ _ hi

theorem keysOf_addNode (h : Nat → Nat) (m : LHM) (k v : Nat)
    (hids : ∀ id ∈ m.order, id < m.nodes.length) :
    keysOf (addNode h m k v) = keysOf m ++ [k] := by
  show (m.order ++ [m.nodes.length]).map (nodeKey (addNode h m k v)) = _
  rw [List.map_append]
  congr 1
  · refine List.map_congr_left ?_
    intro id hid
    exact congrArg Node.key (nodeKey_append_old m _ id (hids id hid))
  · show [(m.nodes ++ [Node.mk k v]).getD m.nodes.length default |>.key] = [k]
    rw [getD_append_len]

theorem entriesOf_addNode (h : Nat → Nat) (m : LHM) (k v : Nat)
    (hids : ∀ id ∈ m.order, id < m.nodes.length) :
    entriesOf (addNode h m k v) = entriesOf m ++ [(k, v)] := by
  show (m.order ++ [m.nodes.length]).map
    (fun id => (nodeKey (addNode h m k v) id, nodeVal (addNode h m k v) id)) = _
  rw [List.map_append]
  congr 1
  · refine List.map_congr_left ?_
    intro id hid
    have := nodeKey_append_old m (Node.mk k v) id (hids id hid)
    show ((m.nodes ++ [Node.mk k v]).getD id default |>.key,
      (m.nodes ++ [Node.mk k v]).getD id default |>.val) = _
    rw [this]
    rfl
  · show [((m.nodes ++ [Node.mk k v]).getD m.nodes.length default |>.key,
      (m.nodes ++ [Node.mk k v]).getD m.nodes.length default |>.val)] = [(k, v)]
    rw [getD_append_len]

theorem addNode_wf (h : Nat → Nat) (m : LHM) (k v : Nat) (hwf : WF h m)
    (hk : k ∉ keysOf m) : WF h (addNode h m k v) := by
  have hfresh : ∀ id ∈ m.order, id < m.nodes.length := hwf.ids_lt
  have hkey_old : ∀ id, id < m.nodes.length →
      nodeKey (addNode h m k v) id = nodeKey m id := by
    intro id hid
    exact congrArg Node.key (nodeKey_append_old m _ id hid)
  have hkey_new : nodeKey (addNode h m k v) m.nodes.length = k := by
    show ((m.nodes ++ [Node.mk k v]).getD m.nodes.length default).key = k
    rw [getD_append_len]
  have hchain_old : ∀ i, ∀ id ∈ chainAt m i, id < m.nodes.length := by
    intro i id hid
    rcases Nat.lt_or_ge i m.bucket_capacity with hlt | hge
    · exact hfresh id (hwf.chain_sub i hlt id hid).1
    · exfalso
      rw [show chainAt m i = [] from ?_] at hid
      · simp at hid
      · refine List.getD_eq_default _ _ ?_
        rw [hwf.buckets_len]; exact hge
  refine ⟨hwf.cap_pos, ?_, ?_, ?_, ?_, ?_, ?_, ?_⟩
  · show (m.buckets.set _ _).length = m.bucket_capacity
    rw [List.length_set]; exact hwf.buckets_len
  · show m.num_elements + 1 = (m.order ++ [m.nodes.length]).length
    rw [List.length_append, hwf.count_eq]; rfl
  · intro id hid
    show id < (m.nodes ++ [Node.mk k v]).length
    rw [List.length_append]
    rcases List.mem_append.mp hid with h1 | h2
    · exact Nat.lt_succ_of_lt (hfresh id h1)
    · rw [List.mem_singleton.mp h2]; simp
  · rw [keysOf_addNode h m k v hfresh]
    rw [List.nodup_append]
    exact ⟨hwf.keys_nodup, List.nodup_singleton k,
      fun x hx hx2 => hk (by rwa [List.mem_singleton.mp hx2] at hx)⟩
  · intro i hi id hid
    by_cases hidx : h k % m.bucket_capacity = i
    · subst hidx
      rw [chainAt_addNode_self h m k v hwf] at hid
      rcases List.mem_cons.mp hid with rfl | hid2
      · constructor
        · exact List.mem_append.mpr (Or.inr (List.mem_singleton_self _))
        · show h (nodeKey (addNode h m k v) m.nodes.length) %
            m.bucket_capacity = h k % m.bucket_capacity
          rw [hkey_new]
      · rcases hwf.chain_sub _ hi id hid2 with ⟨ho, hh⟩
        refine ⟨List.mem_append.mpr (Or.inl ho), ?_⟩
        show h (nodeKey (addNode h m k v) id) % m.bucket_capacity = _
        rw [hkey_old id (hfresh id ho)]
        exact hh
    · rw [chainAt_addNode_other h m k v i hidx] at hid
      rcases hwf.chain_sub i hi id hid with ⟨ho, hh⟩
      refine ⟨List.mem_append.mpr (Or.inl ho), ?_⟩
      show h (nodeKey (addNode h m k v) id) % m.bucket_capacity = i
      rw [hkey_old id (hfresh id ho)]
      exact hh
  · intro id hid
    show id ∈ chainAt (addNode h m k v)
      (h (nodeKey (addNode h m k v) id) % m.bucket_capacity)
    rcases List.mem_append.mp hid with h1 | h2
    · rw [hkey_old id (hfresh id h1)]
      by_cases hidx : h k % m.bucket_capacity =
          h (nodeKey m id) % m.bucket_capacity
      · rw [← hidx, chainAt_addNode_self h m k v hwf, hidx]
        exact List.mem_cons_of_mem _ (hwf.order_sub id h1)
      · rw [chainAt_addNode_other h m k v _ hidx]
        exact hwf.order_sub id h1
    · rw [List.mem_singleton.mp h2, hkey_new,
        chainAt_addNode_self h m k v hwf]
      exact List.mem_cons_self _ _
  · intro i hi
    by_cases hidx : h k % m.bucket_capacity = i
    · subst hidx
      rw [chainAt_addNode_self h m k v hwf]
      refine List.Nodup.cons ?_ (hwf.chain_nodup _ hi)
      intro hmem
      exact absurd rfl (Nat.ne_of_lt (hchain_old _ _ hmem)).symm
    · rw [chainAt_addNode_other h m k v i hidx]
      exact hwf.chain_nodup i hi

theorem insert_new_spec (h : Nat → Nat) (m : LHM) (k v : Nat)
    (hwf : WF h m) (hf : find h m k = none) :
    (insert h m k v).inserted = true ∧
    (insert h m k v).pos = m.nodes.length ∧
    (insert h m k v).map.nodes = m.nodes ++ [Node.mk k v] ∧
    (insert h m k v).map.order = m.order ++ [m.nodes.length] ∧
    (insert h m k v).map.num_elements = m.num_elements + 1 ∧
    (insert h m k v).map.cid = m.cid ∧
    entriesOf (insert h m k v).map = entriesOf m ++ [(k, v)] ∧
    keysOf (insert h m k v).map = keysOf m ++ [k] ∧
    WF h (insert h m k v).map ∧
    find h (insert h m k v).map k = some m.nodes.length := by
  have hk : k ∉ keysOf m := find_none_spec h m k hwf hf
  have key_goal : ∀ (m1 : LHM), WF h m1 → m1.nodes = m.nodes →
      m1.order = m.order → m1.num_elements = m.num_elements →
      m1.cid = m.cid → keysOf m1 = keysOf m → entriesOf m1 = entriesOf m →
      (addNode h m1 k v).nodes = m.nodes ++ [Node.mk k v] ∧
      (addNode h m1 k v).order = m.order ++ [m.nodes.length] ∧
      (addNode h m1 k v).num_elements = m.num_elements + 1 ∧
      (addNode h m1 k v).cid = m.cid ∧
      entriesOf (addNode h m1 k v) = entriesOf m ++ [(k, v)] ∧
      keysOf (addNode h m1 k v) = keysOf m ++ [k] ∧
      WF h (addNode h m1 k v) ∧
      find h (addNode h m1 k v) k = some m.nodes.length := by
    intro m1 hwf1 hn ho hc hcid hks hes
    have hk1 : k ∉ keysOf m1 := by rw [hks]; exact hk
    have hwf2 := addNode_wf h m1 k v hwf1 hk1
    refine ⟨by rw [show (addNode h m1 k v).nodes = m1.nodes ++ [Node.mk k v]
        from rfl, hn],
      by rw [show (addNode h m1 k v).order = m1.order ++ [m1.nodes.length]
        from rfl, ho, hn],
      by rw [show (addNode h m1 k v).num_elements = m1.num_elements + 1
        from rfl, hc],
      by rw [show (addNode h m1 k v).cid = m1.cid from rfl, hcid],
      by rw [entriesOf_addNode h m1 k v hwf1.ids_lt, hes],
      by rw [keysOf_addNode h m1 k v hwf1.ids_lt, hks], hwf2, ?_⟩
    have hmem : m1.nodes.length ∈ (addNode h m1 k v).order :=
      List.mem_append.mpr (Or.inr (List.mem_singleton_self _))
    have hkey : nodeKey (addNode h m1 k v) m1.nodes.length = k := by
      show ((m1.nodes ++ [Node.mk k v]).getD m1.nodes.length default).key = k
      rw [getD_append_len]
    have := find_eq_some_of_mem h (addNode h m1 k v) hwf2 hmem
    rw [hkey] at this
    rw [hn] at this
    exact this
  by_cases hg : 3 * m.bucket_capacity < 4 * (m.num_elements + 1)
  · have hstep : insert h m k v =
        ⟨addNode h (rehash h m) k v, (rehash h m).nodes.length, true⟩ := by
      rw [insert, hf]
      simp only [if_pos hg]
    rcases key_goal (rehash h m) (rehash_wf h m hwf) rfl rfl rfl rfl
      (keysOf_rehash h m) (entriesOf_rehash h m) with
      ⟨g1, g2, g3, g4, g5, g6, g7, g8⟩
    rw [hstep]
    exact ⟨rfl, rfl, g1, g2, g3, g4, g5, g6, g7, g8⟩
  · have hstep : insert h m k v =
        ⟨addNode h m k v, m.nodes.length, true⟩ := by
      rw [insert, hf]
      simp only [if_neg hg]
    rcases key_goal m hwf rfl rfl rfl rfl rfl rfl with
      ⟨g1, g2, g3, g4, g5, g6, g7, g8⟩
    rw [hstep]
    exact ⟨rfl, rfl, g1, g2, g3, g4, g5, g6, g7, g8⟩

theorem insert_dup_spec (h : Nat → Nat) (m : LHM) (k v p : Nat)
    (hf : find h m k = some p) : insert h m k v = ⟨m, p, false⟩ := by
  rw [insert, hf]

theorem find_eq_none_of_not_mem (h : Nat → Nat) (m : LHM) (k : Nat)
    (hwf : WF h m) (hk : k ∉ keysOf m) : find h m k = none := by
  cases hf : find h m k with
  | none => rfl
  | some p =>
    rcases find_some_spec h m k p hwf hf with ⟨ho, hkey⟩
    exact absurd (List.mem_map.mpr ⟨p, ho, hkey⟩) hk

theorem insertList_nil (h : Nat → Nat) (m : LHM) : insertList h m [] = m :=
  rfl

theorem insertList_cons (h : Nat → Nat) (m : LHM) (e : Nat × Nat)
    (rest : List (Nat × Nat)) :
    insertList h m (e :: rest) =
      insertList h (insert h m e.1 e.2).map rest := rfl

/-- Inserting a sequence of fresh, pairwise-distinct keys into a
well-formed map appends exactly those entries, in order, to the iteration
sequence, preserves well-formedness and container identity, grows the node
arena monotonically, and leaves every pre-existing node untouched. -/
theorem insertList_spec (h : Nat → Nat) :
    ∀ (l : List (Nat × Nat)) (m : LHM), WF h m →
      (l.map Prod.fst).Nodup →
      (∀ k ∈ l.map Prod.fst, k ∉ keysOf m) →
      WF h (insertList h m l) ∧
      entriesOf (insertList h m l) = entriesOf m ++ l ∧
      (insertList h m l).cid = m.cid ∧
      m.nodes.length ≤ (insertList h m l).nodes.length ∧
      (∀ i, i < m.nodes.length →
        (insertList h m l).nodes.getD i default = m.nodes.getD i default) ∧
      (∃ os, (insertList h m l).order = m.order ++ os) := by
  intro l
  induction l with
  | nil =>
    intro m hwf _ _
    exact ⟨hwf, by simp [insertList_nil], rfl, Nat.le_refl _,
      fun i _ => rfl, ⟨[], by simp [insertList_nil]⟩⟩
  | cons e rest ih =>
    intro m hwf hnd hfresh
    have hk : e.1 ∉ keysOf m :=
      hfresh e.1 (by simp)
    have hf : find h m e.1 = none := find_eq_none_of_not_mem h m e.1 hwf hk
    rcases insert_new_spec h m e.1 e.2 hwf hf with
      ⟨_, _, hnodes, horder, _, hcid, hentries, hkeys, hwf2, _⟩
    have hnd2 : (rest.map Prod.fst).Nodup := by
      rw [List.map_cons] at hnd
      exact List.Nodup.of_cons hnd
    have hfresh2 : ∀ k ∈ rest.map Prod.fst,
        k ∉ keysOf (insert h m e.1 e.2).map := by
      intro k hkr
      rw [hkeys]
      intro hmem
      rcases List.mem_append.mp hmem with h1 | h2
      · exact hfresh k (by rw [List.map_cons]; exact List.mem_cons_of_mem _ hkr) h1
      · rw [List.mem_singleton.mp h2] at hkr
        rw [List.map_cons] at hnd
        exact (List.nodup_cons.mp hnd).1 hkr
    rcases ih (insert h m e.1 e.2).map hwf2 hnd2 hfresh2 with
      ⟨g1, g2, g3, g4, g5, ⟨os, g6⟩⟩
    rw [insertList_cons]
    refine ⟨g1, ?_, by rw [g3, hcid], ?_, ?_, ?_⟩
    · rw [g2, hentries, List.append_assoc]
      simp
    · refine Nat.le_trans ?_ g4
      rw [hnodes, List.length_append]
      exact Nat.le_succ_of_le (Nat.le_refl _)
    · intro i hi
      have hi2 : i < (insert h m e.1 e.2).map.nodes.length := by
        rw [hnodes, List.length_append]
        exact Nat.lt_succ_of_lt hi
      rw [g5 i hi2, hnodes, getD_append_of_lt _ _ _ _ hi]
    · refine ⟨m.nodes.length :: os, ?_⟩
      rw [g6, horder, List.append_assoc]
      rfl

/-- After inserting any sequence of fresh distinct keys (in particular one
that makes the table grow), every previously present key is still found by
find at the same node, with an unchanged mapped value. -/
theorem find_insertList_old (h : Nat → Nat) (l : List (Nat × Nat))
    (m : LHM) (k : Nat) (hwf : WF h m)
    (hnd : (l.map Prod.fst).Nodup)
    (hfresh : ∀ k2 ∈ l.map Prod.fst, k2 ∉ keysOf m)
    (hk : k ∈ keysOf m) :
    find h (insertList h m l) k = find h m k ∧
    lookupVal h (insertList h m l) k = lookupVal h m k := by
  rcases insertList_spec h l m hwf hnd hfresh with
    ⟨hwf2, _, _, _, hstable, ⟨os, horder⟩⟩
  rcases List.mem_map.mp hk with ⟨p, hp, hpk⟩
  have hp2 : p ∈ (insertList h m l).order := by
    rw [horder]; exact List.mem_append.mpr (Or.inl hp)
  have hkey2 : nodeKey (insertList h m l) p = nodeKey m p :=
    congrArg Node.key (hstable p (hwf.ids_lt p hp))
  have hval2 : nodeVal (insertList h m l) p = nodeVal m p :=
    congrArg Node.val (hstable p (hwf.ids_lt p hp))
  have hfind2 : find h (insertList h m l) k = some p := by
    have := find_eq_some_of_mem h (insertList h m l) hwf2 hp2
    rw [hkey2, hpk] at this
    exact this
  have hfind1 : find h m k = some p := by
    have := find_eq_some_of_mem h m hwf hp
    rw [hpk] at this
    exact this
  rw [hfind1, hfind2]
  refine ⟨rfl, ?_⟩
  rw [lookupVal, lookupVal, hfind1, hfind2]
  simp [hval2]

/-! Well-formedness of a freshly constructed map. -/

theorem emptyWithCap_wf (h : Nat → Nat) (cap cid : Nat) (hcap : 0 < cap) :
    WF h (emptyWithCap cap cid) := by
  refine ⟨hcap, by simp [emptyWithCap], rfl, ?_, List.nodup_nil, ?_, ?_, ?_⟩
  · intro id hid; simp [emptyWithCap] at hid
  · intro i hi id hid
    have hi2 : i < cap := hi
    rw [show chainAt (emptyWithCap cap cid) i =
      (List.replicate cap ([] : List Nat)).getD i [] from rfl,
      getD_replicate_of_lt _ _ _ _ hi2] at hid
    simp at hid
  · intro id hid; simp [emptyWithCap] at hid
  · intro i hi
    have hi2 : i < cap := hi
    rw [show chainAt (emptyWithCap cap cid) i =
      (List.replicate cap ([] : List Nat)).getD i [] from rfl,
      getD_replicate_of_lt _ _ _ _ hi2]
    exact List.nodup_nil

/-! Properties of the chain unlink scan. -/

theorem removeFromChain_cons (id p : Nat) (rest : List Nat) :
    removeFromChain id (p :: rest) =
      if p = id then rest else p :: removeFromChain id rest := rfl

theorem mem_of_mem_removeFromChain (id : Nat) :
    ∀ (l : List Nat) (x : Nat), x ∈ removeFromChain id l → x ∈ l := by
  intro l
  induction l with
  | nil => intro x hx; simp [removeFromChain] at hx
  | cons p rest ih =>
    intro x hx
    rw [removeFromChain_cons] at hx
    by_cases hp : p = id
    · rw [if_pos hp] at hx
      exact List.mem_cons_of_mem p hx
    · rw [if_neg hp] at hx
      rcases List.mem_cons.mp hx with rfl | hx2
      · exact List.mem_cons_self _ _
      · exact List.mem_cons_of_mem p (ih x hx2)

theorem mem_removeFromChain (id : Nat) :
    ∀ (l : List Nat), l.Nodup → ∀ (x : Nat),
      (x ∈ removeFromChain id l ↔ (x ∈ l ∧ x ≠ id)) := by
  intro l
  induction l with
  | nil => intro _ x; simp [removeFromChain]
  | cons p rest ih =>
    intro hnd x
    rw [removeFromChain_cons]
    by_cases hp : p = id
    · subst hp
      rw [if_pos rfl]
      constructor
      · intro hx
        refine ⟨List.mem_cons_of_mem p hx, ?_⟩
        rintro rfl
        exact (List.nodup_cons.mp hnd).1 hx
      · rintro ⟨hx, hne⟩
        rcases List.mem_cons.mp hx with rfl | hx2
        · exact absurd rfl hne
        · exact hx2
    · rw [if_neg hp]
      constructor
      · intro hx
        rcases List.mem_cons.mp hx with rfl | hx2
        · exact ⟨List.mem_cons_self _ _, fun e => hp e⟩
        · rcases (ih (List.nodup_cons.mp hnd).2 x).mp hx2 with ⟨h1, h2⟩
          exact ⟨List.mem_cons_of_mem p h1, h2⟩
      · rintro ⟨hx, hne⟩
        rcases List.mem_cons.mp hx with rfl | hx2
        · exact List.mem_cons_self _ _
        · exact List.mem_cons_of_mem p
            ((ih (List.nodup_cons.mp hnd).2 x).mpr ⟨hx2, hne⟩)

theorem nodup_removeFromChain (id : Nat) :
    ∀ (l : List Nat), l.Nodup → (removeFromChain id l).Nodup := by
  intro l
  induction l with
  | nil => intro _; exact List.nodup_nil
  | cons p rest ih =>
    intro hnd
    rw [removeFromChain_cons]
    by_cases hp : p = id
    · rw [if_pos hp]; exact (List.nodup_cons.mp hnd).2
    · rw [if_neg hp]
      refine List.Nodup.cons ?_ (ih (List.nodup_cons.mp hnd).2)
      intro hmem
      exact (List.nodup_cons.mp hnd).1 (mem_of_mem_removeFromChain id rest p hmem)

/-! Specification of erase on a live entry of this container. -/

theorem erase_ok_spec (h : Nat → Nat) (m : LHM) (id : Nat) (hwf : WF h m)
    (hid : id ∈ m.order) :
    erase h m ⟨NodeRef.entry id, some m.cid⟩ =
      .ok { m with
        buckets := m.buckets.set (h (nodeKey m id) % m.bucket_capacity)
          (removeFromChain id
            (chainAt m (h (nodeKey m id) % m.bucket_capacity))),
        order := m.order.erase id,
        num_elements := m.num_elements - 1 } ∧
    (outMap (erase h m ⟨NodeRef.entry id, some m.cid⟩) m).nodes = m.nodes ∧
    (outMap (erase h m ⟨NodeRef.entry id, some m.cid⟩) m).order =
      m.order.erase id ∧
    (outMap (erase h m ⟨NodeRef.entry id, some m.cid⟩) m).num_elements + 1 =
      m.num_elements ∧
    (outMap (erase h m ⟨NodeRef.entry id, some m.cid⟩) m).cid = m.cid ∧
    (outMap (erase h m ⟨NodeRef.entry id, some m.cid⟩) m).bucket_capacity =
      m.bucket_capacity ∧
    WF h (outMap (erase h m ⟨NodeRef.entry id, some m.cid⟩) m) := by
  have hguard : id ∈ chainAt m (h (nodeKey m id) % m.bucket_capacity) :=
    hwf.order_sub id hid
  have hidxlt : h (nodeKey m id) % m.bucket_capacity < m.bucket_capacity :=
    Nat.mod_lt _ hwf.cap_pos
  have hstep : erase h m ⟨NodeRef.entry id, some m.cid⟩ =
      .ok { m with
        buckets := m.buckets.set (h (nodeKey m id) % m.bucket_capacity)
          (removeFromChain id
            (chainAt m (h (nodeKey m id) % m.bucket_capacity))),
        order := m.order.erase id,
        num_elements := m.num_elements - 1 } := by
    simp [erase, hguard]
  have hnum_pos : 0 < m.num_elements := by
    rw [hwf.count_eq]
    exact List.length_pos.mpr (List.ne_nil_of_mem hid)
  have hond : m.order.Nodup := order_nodup_of_wf h m hwf
  rw [hstep]
  simp only [outMap]
  refine ⟨trivial, trivial, trivial, ?_, trivial, trivial, ?_⟩
  · show m.num_elements - 1 + 1 = m.num_elements
    exact Nat.succ_pred_eq_of_pos hnum_pos
  · have hkey_stable : ∀ x,
        nodeKey { m with
          buckets := m.buckets.set (h (nodeKey m id) % m.bucket_capacity)
            (removeFromChain id
              (chainAt m (h (nodeKey m id) % m.bucket_capacity))),
          order := m.order.erase id,
          num_elements := m.num_elements - 1 } x = nodeKey m x :=
      fun _ => rfl
    refine ⟨hwf.cap_pos, ?_, ?_, ?_, ?_, ?_, ?_, ?_⟩
    · show (m.buckets.set _ _).length = m.bucket_capacity
      rw [List.length_set]; exact hwf.buckets_len
    · show m.num_elements - 1 = (m.order.erase id).length
      rw [List.length_erase_of_mem hid, hwf.count_eq]
    · intro x hx
      exact hwf.ids_lt x (List.mem_of_mem_erase hx)
    · show ((m.order.erase id).map (nodeKey m)).Nodup
      exact List.Nodup.sublist
        (List.Sublist.map (nodeKey m) (List.erase_sublist id m.order))
        hwf.keys_nodup
    · intro i hi x hx
      simp only [hkey_stable]
      by_cases hix : h (nodeKey m id) % m.bucket_capacity = i
      · subst hix
        rw [show chainAt { m with
            buckets := m.buckets.set (h (nodeKey m id) % m.bucket_capacity)
              (removeFromChain id
                (chainAt m (h (nodeKey m id) % m.bucket_capacity))),
            order := m.order.erase id,
            num_elements := m.num_elements - 1 }
            (h (nodeKey m id) % m.bucket_capacity) =
          removeFromChain id
            (chainAt m (h (nodeKey m id) % m.bucket_capacity)) from
          getD_set_self _ _ _ _ (by rw [hwf.buckets_len]; exact hidxlt)] at hx
        rcases (mem_removeFromChain id _ (hwf.chain_nodup _ hi) x).mp hx with
          ⟨hx1, hx2⟩
        rcases hwf.chain_sub _ hi x hx1 with ⟨ho, hh⟩
        exact ⟨(List.Nodup.mem_erase_iff hond).mpr ⟨hx2, ho⟩, hh⟩
      · rw [show chainAt { m with
            buckets := m.buckets.set (h (nodeKey m id) % m.bucket_capacity)
              (removeFromChain id
                (chainAt m (h (nodeKey m id) % m.bucket_capacity))),
            order := m.order.erase id,
            num_elements := m.num_elements - 1 } i = chainAt m i from
          getD_set_of_ne _ _ _ _ _ hix] at hx
        rcases hwf.chain_sub i hi x hx with ⟨ho, hh⟩
        have hxid : x ≠ id := by
          rintro rfl
          exact hix hh
        exact ⟨(List.Nodup.mem_erase_iff hond).mpr ⟨hxid, ho⟩, hh⟩
    · intro x hx
      rcases (List.Nodup.mem_erase_iff hond).mp hx with ⟨hxid, hxo⟩
      simp only [hkey_stable]
      by_cases hix : h (nodeKey m id) % m.bucket_capacity =
          h (nodeKey m x) % m.bucket_capacity
      · rw [show chainAt { m with
            buckets := m.buckets.set (h (nodeKey m id) % m.bucket_capacity)
              (removeFromChain id
                (chainAt m (h (nodeKey m id) % m.bucket_capacity))),
            order := m.order.erase id,
            num_elements := m.num_elements - 1 }
            (h (nodeKey m x) % m.bucket_capacity) =
          removeFromChain id
            (chainAt m (h (nodeKey m id) % m.bucket_capacity)) from by
          rw [← hix]
          exact getD_set_self _ _ _ _ (by rw [hwf.buckets_len]; exact hidxlt)]
        refine (mem_removeFromChain id _
          (by rw [hix]; exact hwf.chain_nodup _ (Nat.mod_lt _ hwf.cap_pos))
            x).mpr ⟨?_, hxid⟩
        rw [hix]
        exact hwf.order_sub x hxo
      · rw [show chainAt { m with
            buckets := m.buckets.set (h (nodeKey m id) % m.bucket_capacity)
              (removeFromChain id
                (chainAt m (h (nodeKey m id) % m.bucket_capacity))),
            order := m.order.erase id,
            num_elements := m.num_elements - 1 }
            (h (nodeKey m x) % m.bucket_capacity) =
          chainAt m (h (nodeKey m x) % m.bucket_capacity) from
          getD_set_of_ne _ _ _ _ _ hix]
        exact hwf.order_sub x hxo
    · intro i hi
      by_cases hix : h (nodeKey m id) % m.bucket_capacity = i
      · subst hix
        rw [show chainAt { m with
            buckets := m.buckets.set (h (nodeKey m id) % m.bucket_capacity)
              (removeFromChain id
                (chainAt m (h (nodeKey m id) % m.bucket_capacity))),
            order := m.order.erase id,
            num_elements := m.num_elements - 1 }
            (h (nodeKey m id) % m.bucket_capacity) =
          removeFromChain id
            (chainAt m (h (nodeKey m id) % m.bucket_capacity)) from
          getD_set_self _ _ _ _ (by rw [hwf.buckets_len]; exact hidxlt)]
        exact nodup_removeFromChain id _ (hwf.chain_nodup _ hi)
      · rw [show chainAt { m with
            buckets := m.buckets.set (h (nodeKey m id) % m.bucket_capacity)
              (removeFromChain id
                (chainAt m (h (nodeKey m id) % m.bucket_capacity))),
            order := m.order.erase id,
            num_elements := m.num_elements - 1 } i = chainAt m i from
          getD_set_of_ne _ _ _ _ _ hix]
        exact hwf.chain_nodup i hi

/-! Capacity-shape and load-factor preservation (claim C3). -/

theorem capOk_pos (m : LHM) (hc : CapOk m) : 0 < m.bucket_capacity := by
  rcases hc with ⟨k, hk⟩
  rw [hk, INIT_CAPACITY]
  exact Nat.mul_pos (by norm_num) (Nat.pos_pow_of_pos k (by norm_num))

theorem capOk_ge_16 (m : LHM) (hc : CapOk m) : 16 ≤ m.bucket_capacity := by
  rcases hc with ⟨k, hk⟩
  rw [hk, INIT_CAPACITY]
  exact Nat.le_mul_of_pos_right 16 (Nat.pos_pow_of_pos k (by norm_num))

theorem insert_capOk_loadOk (h : Nat → Nat) (m : LHM) (k v : Nat)
    (hcap : CapOk m) (hload : LoadOk m) :
    CapOk (insert h m k v).map ∧ LoadOk (insert h m k v).map := by
  cases hf : find h m k with
  | some p =>
    rw [insert_dup_spec h m k v p hf]
    exact ⟨hcap, hload⟩
  | none =>
    by_cases hg : 3 * m.bucket_capacity < 4 * (m.num_elements + 1)
    · have hstep : (insert h m k v).map = addNode h (rehash h m) k v := by
        rw [insert, hf]; simp only [if_pos hg]
      rw [hstep]
      have hcap2 : (addNode h (rehash h m) k v).bucket_capacity =
          m.bucket_capacity * 2 := rfl
      have hnum2 : (addNode h (rehash h m) k v).num_elements =
          m.num_elements + 1 := rfl
      constructor
      · rcases hcap with ⟨j, hj⟩
        refine ⟨j + 1, ?_⟩
        rw [hcap2, hj, pow_succ, Nat.mul_assoc]
      · rw [LoadOk, hcap2, hnum2]
        have h16 : 16 ≤ m.bucket_capacity := capOk_ge_16 m hcap
        rw [LoadOk] at hload
        omega
    · have hstep : (insert h m k v).map = addNode h m k v := by
        rw [insert, hf]; simp only [if_neg hg]
      rw [hstep]
      refine ⟨hcap, ?_⟩
      rw [LoadOk]
      have h1 : (addNode h m k v).num_elements = m.num_elements + 1 := rfl
      have h2 : (addNode h m k v).bucket_capacity = m.bucket_capacity := rfl
      rw [h1, h2]
      omega

theorem insertList_capOk_loadOk (h : Nat → Nat) :
    ∀ (l : List (Nat × Nat)) (m : LHM), CapOk m → LoadOk m →
      CapOk (insertList h m l) ∧ LoadOk (insertList h m l)
  | [], _, hc, hl => ⟨hc, hl⟩
  | e :: rest, m, hc, hl => by
    rw [insertList_cons]
    rcases insert_capOk_loadOk h m e.1 e.2 hc hl with ⟨hc2, hl2⟩
    exact insertList_capOk_loadOk h rest (insert h m e.1 e.2).map hc2 hl2

theorem erase_ok_inv (h : Nat → Nat) (m : LHM) (pos : Iter) (m2 : LHM)
    (he : erase h m pos = .ok m2) :
    m2.bucket_capacity = m.bucket_capacity ∧
    m2.num_elements = m.num_elements - 1 := by
  rw [erase] at he
  split at he
  · cases he
  · split at he
    · cases he
    · split at he
      · split at he
        · cases he
          exact ⟨rfl, rfl⟩
        · cases he
      · cases he

theorem reachable_capOk_loadOk (h : Nat → Nat) (m : LHM)
    (hr : Reachable h m) : CapOk m ∧ LoadOk m := by
  induction hr with
  | empty cid => exact ⟨⟨0, by norm_num [emptyMap, emptyWithCap]⟩, by
      rw [LoadOk]; simp [emptyMap, emptyWithCap]⟩
  | insert_step m k v _ ih =>
    exact insert_capOk_loadOk h m k v ih.1 ih.2
  | erase_step m m2 pos _ he ih =>
    rcases erase_ok_inv h m pos m2 he with ⟨hc, hn⟩
    refine ⟨by rw [CapOk, hc]; exact ih.1, ?_⟩
    rw [LoadOk, hc, hn]
    have := ih.2
    rw [LoadOk] at this
    omega
  | index_step m k _ ih =>
    cases hf : find h m k with
    | some p =>
      have : (opIndex h m k).1 = m := by rw [opIndex, hf]
      rw [this]; exact ih
    | none =>
      have : (opIndex h m k).1 = (insert h m k 0).map := by
        rw [opIndex, hf]
      rw [this]
      exact insert_capOk_loadOk h m k 0 ih.1 ih.2
  | set_step m id v _ ih =>
    exact ⟨ih.1, by rw [LoadOk]; exact ih.2⟩
  | clear_step m _ ih =>
    exact ⟨ih.1, by rw [LoadOk]; simp [clearMap]⟩
  | copy_step other cid _ ih =>
    rw [copyCtor]
    refine insertList_capOk_loadOk h (entriesOf other)
      (emptyWithCap other.bucket_capacity cid) ?_ ?_
    · exact ih.1
    · rw [LoadOk]; simp [emptyWithCap]
  | assign_step m other _ _ ihm ihother =>
    rw [assign]
    by_cases hc : m.cid = other.cid
    · rw [if_pos hc]; exact ihm
    · rw [if_neg hc]
      rw [copyCtor]
      refine insertList_capOk_loadOk h (entriesOf other)
        (emptyWithCap other.bucket_capacity m.cid) ?_ ?_
      · exact ihother.1
      · rw [LoadOk]; simp [emptyWithCap]

theorem insert_growth_iff (h : Nat → Nat) (m : LHM) (k v : Nat)
    (hc : 0 < m.bucket_capacity) :
    ((insert h m k v).map.bucket_capacity = m.bucket_capacity * 2 ↔
      (find h m k = none ∧
        3 * m.bucket_capacity < 4 * (m.num_elements + 1))) ∧
    (¬(find h m k = none ∧
        3 * m.bucket_capacity < 4 * (m.num_elements + 1)) →
      (insert h m k v).map.bucket_capacity = m.bucket_capacity) := by
  have hne : m.bucket_capacity ≠ m.bucket_capacity * 2 := by omega
  cases hf : find h m k with
  | some p =>
    rw [insert_dup_spec h m k v p hf]
    constructor
    · constructor
      · intro he; exact absurd he hne
      · rintro ⟨h1, _⟩; cases h1
    · intro _; rfl
  | none =>
    by_cases hg : 3 * m.bucket_capacity < 4 * (m.num_elements + 1)
    · have hstep : (insert h m k v).map = addNode h (rehash h m) k v := by
        rw [insert, hf]; simp only [if_pos hg]
      rw [hstep]
      constructor
      · exact ⟨fun _ => ⟨rfl, hg⟩, fun _ => rfl⟩
      · intro hcon; exact absurd ⟨rfl, hg⟩ hcon
    · have hstep : (insert h m k v).map = addNode h m k v := by
        rw [insert, hf]; simp only [if_neg hg]
      rw [hstep]
      constructor
      · constructor
        · intro he; exact absurd he hne
        · rintro ⟨_, h2⟩; exact absurd h2 hg
      · intro _; rfl

/-! Traversing the order list through the iterator successor function. -/

theorem succAfter_cons (a id : Nat) (rest : List Nat) :
    succAfter (a :: rest) id =
      if a = id then rest.head? else succAfter rest id := rfl

theorem succAfter_spec :
    ∀ (pre : List Nat) (x : Nat) (suf : List Nat),
      (pre ++ x :: suf).Nodup → succAfter (pre ++ x :: suf) x = suf.head? := by
  intro pre
  induction pre with
  | nil =>
    intro x suf _
    rw [List.nil_append, succAfter_cons, if_pos rfl]
  | cons a pre ih =>
    intro x suf hnd
    rw [List.cons_append, succAfter_cons]
    have hax : a ≠ x := by
      rintro rfl
      exact (List.nodup_cons.mp hnd).1
        (List.mem_append.mpr (Or.inr (List.mem_cons_self _ _)))
    rw [if_neg hax]
    exact ih x suf (List.nodup_cons.mp hnd).2

theorem traverse_suffix (m : LHM) (hnd : m.order.Nodup) :
    ∀ (rest : List Nat) (x : Nat) (pre : List Nat),
      m.order = pre ++ x :: rest →
      traverse m (rest.length + 1) (NodeRef.entry x) = x :: rest := by
  intro rest
  induction rest with
  | nil =>
    intro x pre hor
    have hx : x ∈ m.order := by
      rw [hor]; exact List.mem_append.mpr (Or.inr (List.mem_cons_self _ _))
    have hsucc : succAfter m.order x = none := by
      rw [hor, succAfter_spec pre x [] (by rw [← hor]; exact hnd)]
      rfl
    rw [traverse]
    rw [show orderNextRef m (NodeRef.entry x) =
      some (NodeRef.sent m.cid true) from by
      rw [orderNextRef]
      rw [if_pos hx, hsucc]]
    rfl
  | cons y rest2 ih =>
    intro x pre hor
    have hx : x ∈ m.order := by
      rw [hor]; exact List.mem_append.mpr (Or.inr (List.mem_cons_self _ _))
    have hsucc : succAfter m.order x = some y := by
      rw [hor, succAfter_spec pre x (y :: rest2) (by rw [← hor]; exact hnd)]
      rfl
    rw [traverse]
    rw [show orderNextRef m (NodeRef.entry x) =
      some (NodeRef.entry y) from by
      rw [orderNextRef]
      rw [if_pos hx, hsucc]]
    have := ih y (pre ++ [x]) (by rw [hor, List.append_assoc]; rfl)
    show x :: traverse m (rest2.length + 1) (NodeRef.entry y) = x :: y :: rest2
    rw [this]

theorem traverse_order (m : LHM) (hnd : m.order.Nodup) :
    traverse m m.order.length (firstRef m) = m.order := by
  rcases hor : m.order with _ | ⟨x, rest⟩
  · rw [show firstRef m = NodeRef.sent m.cid true from by rw [firstRef, hor]]
    rfl
  · rw [show firstRef m = NodeRef.entry x from by rw [firstRef, hor]]
    exact traverse_suffix m hnd rest x [] (by rw [hor]; rfl)

/-! Writing through a value reference (claims C5 and C6). -/

theorem getD_set_val_key :
    ∀ (l : List Node) (i v x : Nat),
      ((l.set i { l.getD i default with val := v }).getD x default).key =
        (l.getD x default).key
  | [], _, _, _ => by simp
  | _ :: _, 0, _, 0 => rfl
  | _ :: _, 0, _, _ + 1 => rfl
  | _ :: _, _ + 1, _, 0 => rfl
  | _ :: l, i + 1, v, x + 1 => getD_set_val_key l i v x

theorem nodeKey_setValue (m : LHM) (id v x : Nat) :
    nodeKey (setValue m id v) x = nodeKey m x :=
  getD_set_val_key m.nodes id v x

theorem findChain_congr_keys (nodes1 nodes2 : List Node) (k : Nat)
    (hk : ∀ p, (nodes1.getD p default).key = (nodes2.getD p default).key) :
    ∀ (ch : List Nat), findChain nodes1 k ch = findChain nodes2 k ch := by
  intro ch
  induction ch with
  | nil => rfl
  | cons p rest ih =>
    rw [findChain_cons, findChain_cons, hk p, ih]

theorem find_setValue (h : Nat → Nat) (m : LHM) (id v k : Nat) :
    find h (setValue m id v) k = find h m k := by
  rw [find, find]
  exact findChain_congr_keys _ _ k (fun p => getD_set_val_key m.nodes id v p) _

theorem nodeVal_setValue_self (m : LHM) (id v : Nat)
    (hid : id < m.nodes.length) : nodeVal (setValue m id v) id = v := by
  rw [nodeVal]
  rw [show (setValue m id v).nodes =
    m.nodes.set id { m.nodes.getD id default with val := v } from rfl]
  rw [getD_set_self _ _ _ _ hid]

theorem entriesOf_fst (m : LHM) :
    (entriesOf m).map Prod.fst = keysOf m := by
  rw [entriesOf, keysOf, List.map_map]
  rfl

/-! Remaining small helper lemmas. -/

theorem opArrow_ne_err (m : LHM) (pos : Iter) (e : MapError) :
    opArrow m pos ≠ .err e := by
  rw [opArrow]
  cases pos.node with
  | null => simp
  | sent c b => simp
  | entry id =>
    by_cases hm : id ∈ m.order
    · simp [hm]
    · simp [hm]

theorem firstRef_ne_null (m : LHM) : firstRef m ≠ NodeRef.null := by
  cases hm : m.order with
  | nil => simp [firstRef, hm]
  | cons x r => simp [firstRef, hm]

theorem M1_wf : WF hId M1 :=
  ⟨by decide, by decide, by decide, by decide, by decide, by decide,
   by decide, by decide⟩

/-! The ten claims. -/

/-- C1: re-inserting a key that is already present returns the iterator to
the existing entry with the inserted flag false, and leaves the map — its
entries, their values, the iteration order, and the size — exactly
unchanged. -/
theorem insert_existing_key_noop (h : Nat → Nat) (m : LHM) (k v p : Nat)
    (hf : find h m k = some p) :
    insert h m k v = ⟨m, p, false⟩ ∧
    nodeKey m p = k ∧
    (insert h m k v).map = m ∧
    (insert h m k v).inserted = false ∧
    entriesOf (insert h m k v).map = entriesOf m ∧
    keysOf (insert h m k v).map = keysOf m ∧
    (insert h m k v).map.num_elements = m.num_elements ∧
    (insert h m k v).map.order = m.order ∧
    lookupVal h (insert h m k v).map k = lookupVal h m k := by
  have hstep := insert_dup_spec h m k v p hf
  have hkey := (findChain_some m.nodes k _ p hf).2
  rw [hstep]
  exact ⟨rfl, hkey, rfl, rfl, rfl, rfl, rfl, rfl, rfl⟩

/-- Witness for C1 at a concrete map holding key 5. -/
theorem insert_existing_key_noop_witness :
    find hId M1 5 = some 0 ∧ insert hId M1 5 99 = ⟨M1, 0, false⟩ :=
  ⟨by decide, (insert_existing_key_noop hId M1 5 99 0 (by decide)).1⟩

/-- C2: starting from a freshly constructed map, inserting any sequence of
pairwise-distinct keys makes the iteration sequence (walking order_next
from begin towards end, which coincides with the order list) exactly that
sequence of entries in insertion order, and every successful insert links
the new node immediately before the tail sentinel, i.e. appends it to the
order list. -/
theorem insert_sequence_iteration_order (h : Nat → Nat) (cid : Nat)
    (l : List (Nat × Nat)) (m : LHM) (k v : Nat)
    (hnd : (l.map Prod.fst).Nodup) (hnew : find h m k = none) :
    entriesOf (insertList h (emptyMap cid) l) = l ∧
    keysOf (insertList h (emptyMap cid) l) = l.map Prod.fst ∧
    traverse (insertList h (emptyMap cid) l)
      (insertList h (emptyMap cid) l).order.length
      (firstRef (insertList h (emptyMap cid) l)) =
      (insertList h (emptyMap cid) l).order ∧
    (insert h m k v).map.order = m.order ++ [m.nodes.length] ∧
    (insert h m k v).inserted = true := by
  have hwf0 : WF h (emptyMap cid) :=
    emptyWithCap_wf h INIT_CAPACITY cid (by norm_num [INIT_CAPACITY])
  have hfresh : ∀ k2 ∈ l.map Prod.fst, k2 ∉ keysOf (emptyMap cid) := by
    intro k2 _ hk2
    simp [keysOf, emptyMap, emptyWithCap] at hk2
  rcases insertList_spec h l (emptyMap cid) hwf0 hnd hfresh with
    ⟨hwfL, hent, _, _, _, _⟩
  have hent2 : entriesOf (insertList h (emptyMap cid) l) = l := by
    rw [hent]
    rw [show entriesOf (emptyMap cid) = [] from rfl]
    exact List.nil_append l
  have htail : (insert h m k v).map.order = m.order ++ [m.nodes.length] ∧
      (insert h m k v).inserted = true := by
    by_cases hg : 3 * m.bucket_capacity < 4 * (m.num_elements + 1)
    · have hstep : insert h m k v =
          ⟨addNode h (rehash h m) k v, (rehash h m).nodes.length, true⟩ := by
        rw [insert, hnew]; simp only [if_pos hg]
      rw [hstep]
      exact ⟨rfl, rfl⟩
    · have hstep : insert h m k v =
          ⟨addNode h m k v, m.nodes.length, true⟩ := by
        rw [insert, hnew]; simp only [if_neg hg]
      rw [hstep]
      exact ⟨rfl, rfl⟩
  refine ⟨hent2, ?_, traverse_order _ (order_nodup_of_wf h _ hwfL),
    htail.1, htail.2⟩
  rw [← entriesOf_fst, hent2]

/-- Witness for C2 with the two-entry sequence (5, 50), (7, 70). -/
theorem insert_sequence_iteration_order_witness :
    entriesOf (insertList hId (emptyMap 0) [(5, 50), (7, 70)]) =
      [(5, 50), (7, 70)] :=
  (insert_sequence_iteration_order hId 0 [(5, 50), (7, 70)]
    (emptyMap 0) 3 30 (by decide) (by decide)).1

/-- C5: at (and the const operator[], which simply forwards to at) raises
index_out_of_bound exactly on the absent keys and returns the stored
mapped value on present keys; being const operations they take no state to
a new state. -/
theorem at_bounds_check (h : Nat → Nat) (m : LHM) (k1 k2 p : Nat)
    (hwf : WF h m) (h1 : find h m k1 = none) (h2 : find h m k2 = some p) :
    atKey h m k1 = .error .index_out_of_bound ∧
    atKey h m k2 = .ok (nodeVal m p) ∧
    k1 ∉ keysOf m ∧
    k2 ∈ keysOf m ∧
    opIndexConst h m k1 = atKey h m k1 ∧
    opIndexConst h m k2 = atKey h m k2 := by
  refine ⟨by rw [atKey, h1], by rw [atKey, h2],
    find_none_spec h m k1 hwf h1, ?_, rfl, rfl⟩
  rcases find_some_spec h m k2 p hwf h2 with ⟨ho, hk⟩
  exact List.mem_map.mpr ⟨p, ho, hk⟩

/-- Witness for C5: key 9 is absent and key 5 present in M1. -/
theorem at_bounds_check_witness :
    atKey hId M1 9 = .error .index_out_of_bound ∧
    atKey hId M1 5 = .ok (nodeVal M1 0) :=
  ⟨(at_bounds_check hId M1 9 5 0 M1_wf (by decide) (by decide)).1,
   (at_bounds_check hId M1 9 5 0 M1_wf (by decide) (by decide)).2.1⟩

/-- C6: the mutating operator[] on an absent key inserts it with the
default-constructed value, growing the size by one and appending the key
at the end of the iteration order, and returns a reference through which a
write is seen by a later at; on a present key it returns the existing
value's reference and changes nothing. -/
theorem index_operator_default_insert (h : Nat → Nat) (m : LHM)
    (k1 k2 p v : Nat) (hwf : WF h m)
    (h1 : find h m k1 = none) (h2 : find h m k2 = some p) :
    (opIndex h m k1).1.num_elements = m.num_elements + 1 ∧
    entriesOf (opIndex h m k1).1 = entriesOf m ++ [(k1, 0)] ∧
    nodeVal (opIndex h m k1).1 (opIndex h m k1).2 = 0 ∧
    atKey h (setValue (opIndex h m k1).1 (opIndex h m k1).2 v) k1 = .ok v ∧
    opIndex h m k2 = (m, p) := by
  have hop : opIndex h m k1 = ((insert h m k1 0).map, (insert h m k1 0).pos) := by
    rw [opIndex, h1]
  rcases insert_new_spec h m k1 0 hwf h1 with
    ⟨_, hpos, hnodes, _, hnum, _, hent, _, _, hfind2⟩
  have hlen : m.nodes.length < (insert h m k1 0).map.nodes.length := by
    rw [hnodes, List.length_append]
    simp
  refine ⟨?_, ?_, ?_, ?_, by rw [opIndex, h2]⟩
  · rw [hop]; exact hnum
  · rw [hop]; exact hent
  · rw [hop]
    show nodeVal (insert h m k1 0).map (insert h m k1 0).pos = 0
    rw [hpos, nodeVal, hnodes, getD_append_len]
  · rw [hop]
    show atKey h
      (setValue (insert h m k1 0).map (insert h m k1 0).pos v) k1 = .ok v
    rw [hpos, atKey, find_setValue, hfind2]
    show Except.ok
      (nodeVal (setValue (insert h m k1 0).map m.nodes.length v)
        m.nodes.length) = Except.ok v
    rw [nodeVal_setValue_self _ _ _ hlen]

/-- Witness for C6: default-inserting key 9 into M1, then writing 123. -/
theorem index_operator_default_insert_witness :
    entriesOf (opIndex hId M1 9).1 = entriesOf M1 ++ [(9, 0)] ∧
    atKey hId (setValue (opIndex hId M1 9).1 (opIndex hId M1 9).2 123) 9 =
      .ok 123 :=
  ⟨(index_operator_default_insert hId M1 9 5 0 123 M1_wf
      (by decide) (by decide)).2.1,
   (index_operator_default_insert hId M1 9 5 0 123 M1_wf
      (by decide) (by decide)).2.2.2.1⟩

/-- C3: on every reachable map state the bucket capacity is a power of two
obtained from 16 by doubling and the load invariant
num_elements ≤ capacity × 0.75 holds; it still holds after any further
insert, and an insert doubles the capacity (running rehash, which
recomputes every live entry's bucket index under the doubled capacity)
exactly when the key is new and num_elements + 1 > capacity × 0.75, the
capacity staying unchanged otherwise. -/
theorem capacity_growth_invariant (h : Nat → Nat) (m : LHM) (k v : Nat)
    (hr : Reachable h m) :
    CapOk m ∧
    LoadOk m ∧
    LoadOk (insert h m k v).map ∧
    ((insert h m k v).map.bucket_capacity = m.bucket_capacity * 2 ↔
      (find h m k = none ∧
        3 * m.bucket_capacity < 4 * (m.num_elements + 1))) ∧
    ((insert h m k v).map.bucket_capacity = m.bucket_capacity ∨
      (insert h m k v).map.bucket_capacity = m.bucket_capacity * 2) := by
  rcases reachable_capOk_loadOk h m hr with ⟨hc, hl⟩
  rcases insert_capOk_loadOk h m k v hc hl with ⟨_, hl2⟩
  rcases insert_growth_iff h m k v (capOk_pos m hc) with ⟨g1, g2⟩
  refine ⟨hc, hl, hl2, g1, ?_⟩
  by_cases hcond : find h m k = none ∧
      3 * m.bucket_capacity < 4 * (m.num_elements + 1)
  · exact Or.inr (g1.mpr hcond)
  · exact Or.inl (g2 hcond)

/-- Witness for C3 at the default-constructed map with an insert of key 5. -/
theorem capacity_growth_invariant_witness :
    CapOk (emptyMap 0) ∧ LoadOk (emptyMap 0) ∧
    LoadOk (insert hId (emptyMap 0) 5 50).map :=
  ⟨(capacity_growth_invariant hId (emptyMap 0) 5 50 (Reachable.empty 0)).1,
   (capacity_growth_invariant hId (emptyMap 0) 5 50 (Reachable.empty 0)).2.1,
   (capacity_growth_invariant hId (emptyMap 0) 5 50 (Reachable.empty 0)).2.2.1⟩

/-- C4: rehash changes only the bucket table (and the chain links it
encodes), never the entry arena, the order list, the element count or the
container identity; on a well-formed map it preserves well-formedness and
find resolves every key to the very same node before and after. In
consequence, after a sequence of inserts of fresh distinct keys (in
particular one that triggers growth) every previously inserted key is
still found at the same node with an unchanged value, and the previous
entries keep their iteration order as a prefix. -/
theorem rehash_frame_and_lookup_preservation (h : Nat → Nat) (m : LHM)
    (l : List (Nat × Nat)) (k k2 : Nat) (hwf : WF h m)
    (hnd : (l.map Prod.fst).Nodup)
    (hfresh : ∀ k3 ∈ l.map Prod.fst, k3 ∉ keysOf m)
    (hk : k ∈ keysOf m) :
    (rehash h m).nodes = m.nodes ∧
    (rehash h m).order = m.order ∧
    (rehash h m).num_elements = m.num_elements ∧
    (rehash h m).cid = m.cid ∧
    entriesOf (rehash h m) = entriesOf m ∧
    keysOf (rehash h m) = keysOf m ∧
    WF h (rehash h m) ∧
    find h (rehash h m) k2 = find h m k2 ∧
    find h (insertList h m l) k = find h m k ∧
    lookupVal h (insertList h m l) k = lookupVal h m k ∧
    entriesOf (insertList h m l) = entriesOf m ++ l := by
  rcases find_insertList_old h l m k hwf hnd hfresh hk with ⟨f1, f2⟩
  exact ⟨rfl, rfl, rfl, rfl, rfl, rfl, rehash_wf h m hwf,
    find_rehash h m hwf k2, f1, f2,
    (insertList_spec h l m hwf hnd hfresh).2.1⟩

/-- Witness for C4: key 5 of M1 survives the insert of key 7 (and rehash
keeps its lookup). -/
theorem rehash_frame_and_lookup_preservation_witness :
    find hId (rehash hId M1) 5 = find hId M1 5 ∧
    lookupVal hId (insertList hId M1 [(7, 70)]) 5 = lookupVal hId M1 5 :=
  ⟨(rehash_frame_and_lookup_preservation hId M1 [(7, 70)] 5 5 M1_wf
      (by decide) (by decide) (by decide)).2.2.2.2.2.2.2.1,
   (rehash_frame_and_lookup_preservation hId M1 [(7, 70)] 5 5 M1_wf
      (by decide) (by decide) (by decide)).2.2.2.2.2.2.2.2.2.1⟩

/-- C7 (as amended): the iterator checks that the source does perform —
operator++ at the claimed container's tail sentinel, operator-- at its
first entry (begin), operator* on a null map pointer, a null node or one
of the claimed container's two sentinels — all raise invalid_iterator,
and so do operator++/operator-- on a null node; operator->, however,
performs no validation at all and never raises (its misuse is undefined
behavior), and operator* does not detect nodes of other containers. -/
theorem iterator_misuse_checks (m : LHM) (pos : Iter) (c : Nat) (b : Bool)
    (e : MapError) :
    iterNext m (endIter m) = .err .invalid_iterator ∧
    iterPrev m (beginIter m) = .err .invalid_iterator ∧
    opStar m ⟨pos.node, none⟩ = .err .invalid_iterator ∧
    opStar m ⟨NodeRef.null, some c⟩ = .err .invalid_iterator ∧
    opStar m ⟨NodeRef.sent c b, some c⟩ = .err .invalid_iterator ∧
    iterNext m ⟨NodeRef.null, some c⟩ = .err .invalid_iterator ∧
    iterPrev m ⟨NodeRef.null, some c⟩ = .err .invalid_iterator ∧
    opArrow m pos ≠ .err e := by
  refine ⟨?_, ?_, rfl, by simp [opStar], ?_, by simp [iterNext],
    by simp [iterPrev], opArrow_ne_err m pos e⟩
  · simp [iterNext, endIter]
  · have hne := firstRef_ne_null m
    simp [iterPrev, beginIter, hne]
  · cases b <;> simp [opStar]

/-- C7 counterexample: operator-> on a null (default-constructed) iterator
does not raise the invalid-iterator error — the source performs no check
there, so the access is undefined behavior instead of a signalled error;
likewise operator* on a node that does not belong to the iterator's
claimed container passes all of the source's checks (which only compare
against the claimed container's own sentinels) and does not raise. -/
theorem arrow_op_unchecked_cex :
    opArrow (emptyMap 0) ⟨NodeRef.null, none⟩ = IterOutcome.ub ∧
    opArrow (emptyMap 0) ⟨NodeRef.null, none⟩ ≠
      IterOutcome.err MapError.invalid_iterator ∧
    opStar (emptyMap 0) ⟨NodeRef.entry 0, some 0⟩ = IterOutcome.ub ∧
    opStar (emptyMap 0) ⟨NodeRef.entry 0, some 0⟩ ≠
      IterOutcome.err MapError.invalid_iterator :=
  ⟨rfl, by decide, by decide, by decide⟩

theorem M2_wf : WF hId M2 :=
  ⟨by decide, by decide, by decide, by decide, by decide, by decide,
   by decide, by decide⟩

/-- C8: over the iterator states the public interface can produce, erase
throws invalid_iterator (performing no mutation — it returns no map)
exactly when the iterator is null, belongs to a different container, or
references a sentinel (end() included); on a live entry of this container
it removes exactly that entry, keeping every other node, its value and the
relative order (the new order list is the old one with just that id
removed), and decrements the count by one; together with insert's count
behavior on fresh and duplicate keys this gives
size = inserts of distinct keys − erases, and empty() holds iff
size() = 0. -/
theorem erase_validation_and_removal (h : Nat → Nat) (m : LHM) (pos : Iter)
    (id k3 v3 k4 v4 p4 : Nat) (hwf : WF h m) (hpos : apiIter m pos)
    (hid : id ∈ m.order) (h3 : find h m k3 = none)
    (h4 : find h m k4 = some p4) :
    (erase h m pos = .err .invalid_iterator ↔
      (pos.node = NodeRef.null ∨ pos.mapId ≠ some m.cid ∨
        pos.node = NodeRef.sent m.cid true ∨
        pos.node = NodeRef.sent m.cid false)) ∧
    isOk (erase h m ⟨NodeRef.entry id, some m.cid⟩) = true ∧
    (outMap (erase h m ⟨NodeRef.entry id, some m.cid⟩) m).nodes = m.nodes ∧
    (outMap (erase h m ⟨NodeRef.entry id, some m.cid⟩) m).order =
      m.order.erase id ∧
    (outMap (erase h m ⟨NodeRef.entry id, some m.cid⟩) m).num_elements + 1 =
      m.num_elements ∧
    (outMap (erase h m ⟨NodeRef.entry id, some m.cid⟩) m).bucket_capacity =
      m.bucket_capacity ∧
    List.Sublist
      (entriesOf (outMap (erase h m ⟨NodeRef.entry id, some m.cid⟩) m))
      (entriesOf m) ∧
    WF h (outMap (erase h m ⟨NodeRef.entry id, some m.cid⟩) m) ∧
    (insert h m k3 v3).map.num_elements = m.num_elements + 1 ∧
    (insert h m k4 v4).map.num_elements = m.num_elements ∧
    (mapEmpty m = true ↔ mapSize m = 0) := by
  rcases erase_ok_spec h m id hwf hid with
    ⟨hok, hnodes, horder, hnum, _, hcap, hwf2⟩
  have hiff : erase h m pos = .err .invalid_iterator ↔
      (pos.node = NodeRef.null ∨ pos.mapId ≠ some m.cid ∨
        pos.node = NodeRef.sent m.cid true ∨
        pos.node = NodeRef.sent m.cid false) := by
    rcases hpos with ⟨hn, _⟩ | hne | ⟨hmapc, hcase⟩
    · refine iff_of_true ?_ (Or.inl hn)
      rw [erase, if_pos (Or.inr hn)]
    · refine iff_of_true ?_ (Or.inr (Or.inl hne))
      rw [erase, if_pos (Or.inl hne)]
    · rcases hcase with hT | hH | ⟨id0, hid0, hE⟩
      · refine iff_of_true ?_ (Or.inr (Or.inr (Or.inl hT)))
        have hc1 : ¬(pos.mapId ≠ some m.cid ∨ pos.node = NodeRef.null) := by
          rw [hmapc, hT]; simp
        rw [erase, if_neg hc1, if_pos (Or.inl hT)]
      · refine iff_of_true ?_ (Or.inr (Or.inr (Or.inr hH)))
        have hc1 : ¬(pos.mapId ≠ some m.cid ∨ pos.node = NodeRef.null) := by
          rw [hmapc, hH]; simp
        rw [erase, if_neg hc1, if_pos (Or.inr hH)]
      · have hpos_eq : pos = ⟨NodeRef.entry id0, some m.cid⟩ := by
          cases pos with
          | mk n mp =>
            simp only at hE hmapc
            rw [hE, hmapc]
        rw [hpos_eq]
        rcases erase_ok_spec h m id0 hwf hid0 with ⟨hok0, _⟩
        rw [hok0]
        refine iff_of_false (by intro hcon; cases hcon) ?_
        simp
  have hst : entriesOf (outMap (erase h m ⟨NodeRef.entry id, some m.cid⟩) m) =
      (m.order.erase id).map (fun x => (nodeKey m x, nodeVal m x)) := by
    rw [entriesOf, horder]
    refine List.map_congr_left ?_
    intro x _
    have h1 : nodeKey (outMap (erase h m ⟨NodeRef.entry id, some m.cid⟩) m) x =
        nodeKey m x := by
      rw [nodeKey, nodeKey, hnodes]
    have h2 : nodeVal (outMap (erase h m ⟨NodeRef.entry id, some m.cid⟩) m) x =
        nodeVal m x := by
      rw [nodeVal, nodeVal, hnodes]
    rw [h1, h2]
  refine ⟨hiff, by rw [hok]; rfl, hnodes, horder, hnum, hcap, ?_, hwf2,
    (insert_new_spec h m k3 v3 hwf h3).2.2.2.2.1,
    by rw [insert_dup_spec h m k4 v4 p4 h4],
    by simp [mapEmpty, mapSize]⟩
  rw [hst, entriesOf]
  exact List.Sublist.map _ (List.erase_sublist id m.order)

/-- Witness for C8 on the two-entry map M2: erasing through end() throws,
erasing the entry of key 5 succeeds and removes exactly that entry. -/
theorem erase_validation_and_removal_witness :
    (erase hId M2 (endIter M2) = .err .invalid_iterator ↔
      ((endIter M2).node = NodeRef.null ∨
        (endIter M2).mapId ≠ some M2.cid ∨
        (endIter M2).node = NodeRef.sent M2.cid true ∨
        (endIter M2).node = NodeRef.sent M2.cid false)) ∧
    isOk (erase hId M2 ⟨NodeRef.entry 0, some M2.cid⟩) = true ∧
    (outMap (erase hId M2 ⟨NodeRef.entry 0, some M2.cid⟩) M2).order =
      M2.order.erase 0 :=
  ⟨(erase_validation_and_removal hId M2 (endIter M2) 0 9 1 5 1 0 M2_wf
      (Or.inr (Or.inr ⟨rfl, Or.inl rfl⟩)) (by decide) (by decide)
      (by decide)).1,
   (erase_validation_and_removal hId M2 (endIter M2) 0 9 1 5 1 0 M2_wf
      (Or.inr (Or.inr ⟨rfl, Or.inl rfl⟩)) (by decide) (by decide)
      (by decide)).2.1,
   (erase_validation_and_removal hId M2 (endIter M2) 0 9 1 5 1 0 M2_wf
      (Or.inr (Or.inr ⟨rfl, Or.inl rfl⟩)) (by decide) (by decide)
      (by decide)).2.2.2.1⟩

/-- One insert step with the arena and order list given concretely. -/
theorem insert_concrete_step (h : Nat → Nat) (m : LHM) (k v : Nat)
    (ns ns2 : List Node) (os os2 : List Nat) (hwf : WF h m)
    (hn : m.nodes = ns) (ho : m.order = os) (hk : k ∉ keysOf m)
    (hns2 : ns ++ [Node.mk k v] = ns2) (hos2 : os ++ [ns.length] = os2) :
    (insert h m k v).map.nodes = ns2 ∧
    (insert h m k v).map.order = os2 ∧
    (insert h m k v).map.cid = m.cid ∧
    WF h (insert h m k v).map := by
  have hf := find_eq_none_of_not_mem h m k hwf hk
  rcases insert_new_spec h m k v hwf hf with
    ⟨_, _, hn2, ho2, _, hc2, _, _, hwf2, _⟩
  refine ⟨?_, ?_, hc2, hwf2⟩
  · rw [hn2, hn, hns2]
  · rw [ho2, ho, hn, hos2]

/-- The erase-then-reinsert scenario, carried out on any map whose arena
and order list hold exactly A, B, C in this insertion order. -/
theorem scenario_core (h : Nat → Nat) (m3 : LHM) (A B C vA vB vC vB2 : Nat)
    (hwf3 : WF h m3)
    (h3n : m3.nodes = [Node.mk A vA, Node.mk B vB, Node.mk C vC])
    (h3o : m3.order = [0, 1, 2]) (hAB : A ≠ B) (hBC : B ≠ C) :
    entriesOf (insert h (outMap (erase h m3 (findIter h m3 B)) m3) B vB2).map
      = [(A, vA), (C, vC), (B, vB2)] ∧
    keysOf (insert h (outMap (erase h m3 (findIter h m3 B)) m3) B vB2).map
      = [A, C, B] ∧
    mapSize (insert h (outMap (erase h m3 (findIter h m3 B)) m3) B vB2).map
      = 3 := by
  have h1mem : (1 : Nat) ∈ m3.order := by rw [h3o]; simp
  have hkey1 : nodeKey m3 1 = B := by rw [nodeKey, h3n]; rfl
  have hfind : find h m3 B = some 1 := by
    have := find_eq_some_of_mem h m3 hwf3 h1mem
    rw [hkey1] at this
    exact this
  have hiter : findIter h m3 B = ⟨NodeRef.entry 1, some m3.cid⟩ := by
    simp only [findIter, hfind]
  rw [hiter]
  rcases erase_ok_spec h m3 1 hwf3 h1mem with
    ⟨_, hEn, hEo, hEnum, _, _, hEwf⟩
  have hEo2 : (outMap (erase h m3 ⟨NodeRef.entry 1, some m3.cid⟩) m3).order =
      [0, 2] := by
    rw [hEo, h3o]
    rfl
  have hEkeys : keysOf (outMap (erase h m3 ⟨NodeRef.entry 1, some m3.cid⟩) m3)
      = [A, C] := by
    rw [keysOf, hEo2]
    simp [nodeKey, hEn, h3n]
  have hEentries :
      entriesOf (outMap (erase h m3 ⟨NodeRef.entry 1, some m3.cid⟩) m3) =
        [(A, vA), (C, vC)] := by
    rw [entriesOf, hEo2]
    simp [nodeKey, nodeVal, hEn, h3n]
  have hfE : find h (outMap (erase h m3 ⟨NodeRef.entry 1, some m3.cid⟩) m3) B
      = none := by
    refine find_eq_none_of_not_mem h _ B hEwf ?_
    rw [hEkeys]
    intro hmem
    rcases List.mem_cons.mp hmem with he | hmem2
    · exact hAB he.symm
    · exact hBC (List.mem_singleton.mp hmem2)
  rcases insert_new_spec h
    (outMap (erase h m3 ⟨NodeRef.entry 1, some m3.cid⟩) m3) B vB2 hEwf hfE
    with ⟨_, _, _, _, hvnum, _, hvent, hvkeys, _, _⟩
  have h3num : m3.num_elements = 3 := by
    rw [hwf3.count_eq, h3o]
    rfl
  refine ⟨?_, ?_, ?_⟩
  · rw [hvent, hEentries]
    rfl
  · rw [hvkeys, hEkeys]
    rfl
  · rw [mapSize, hvnum]
    omega

/-- C9: for three pairwise-distinct keys, inserting A, B, C in that order,
erasing B through the iterator find returns for it, and inserting B again
yields the iteration order A, C, B: the re-insertion after a full erase
appends at the current tail (whereas without the erase it would have been
a no-op, claim C1). -/
theorem reinsert_after_erase_order (h : Nat → Nat)
    (cid A B C vA vB vC vB2 : Nat)
    (hAB : A ≠ B) (hAC : A ≠ C) (hBC : B ≠ C) :
    entriesOf (scenarioACB h cid A B C vA vB vC vB2) =
      [(A, vA), (C, vC), (B, vB2)] ∧
    keysOf (scenarioACB h cid A B C vA vB vC vB2) = [A, C, B] ∧
    mapSize (scenarioACB h cid A B C vA vB vC vB2) = 3 := by
  have hwf0 : WF h (emptyWithCap 16 cid) :=
    emptyWithCap_wf h 16 cid (by norm_num)
  obtain ⟨t1n, t1o, _, t1wf⟩ := insert_concrete_step h (emptyWithCap 16 cid)
    A vA [] [Node.mk A vA] [] [0] hwf0 rfl rfl
    (by simp [keysOf, emptyWithCap]) rfl rfl
  have t1k : keysOf (insert h (emptyWithCap 16 cid) A vA).map = [A] := by
    rw [keysOf, t1o]
    simp [nodeKey, t1n]
  obtain ⟨t2n, t2o, _, t2wf⟩ := insert_concrete_step h
    (insert h (emptyWithCap 16 cid) A vA).map B vB
    [Node.mk A vA] [Node.mk A vA, Node.mk B vB] [0] [0, 1] t1wf t1n t1o
    (by
      rw [t1k]
      intro hmem
      exact hAB (List.mem_singleton.mp hmem).symm) rfl rfl
  have t2k : keysOf (insert h (insert h (emptyWithCap 16 cid) A vA).map
      B vB).map = [A, B] := by
    rw [keysOf, t2o]
    simp [nodeKey, t2n]
  obtain ⟨t3n, t3o, _, t3wf⟩ := insert_concrete_step h
    (insert h (insert h (emptyWithCap 16 cid) A vA).map B vB).map C vC
    [Node.mk A vA, Node.mk B vB]
    [Node.mk A vA, Node.mk B vB, Node.mk C vC] [0, 1] [0, 1, 2]
    t2wf t2n t2o
    (by
      rw [t2k]
      intro hmem
      rcases List.mem_cons.mp hmem with he | hm2
      · exact hAC he.symm
      · exact hBC (List.mem_singleton.mp hm2).symm) rfl rfl
  exact scenario_core h
    (insert h (insert h (insert h (emptyWithCap 16 cid) A vA).map B vB).map
      C vC).map A B C vA vB vC vB2 t3wf t3n t3o hAB hBC

/-- Witness for C9 with keys 1, 2, 3. -/
theorem reinsert_after_erase_order_witness :
    entriesOf (scenarioACB hId 0 1 2 3 10 20 30 99) =
      [(1, 10), (3, 30), (2, 99)] ∧
    keysOf (scenarioACB hId 0 1 2 3 10 20 30 99) = [1, 3, 2] :=
  ⟨(reinsert_after_erase_order hId 0 1 2 3 10 20 30 99
      (by decide) (by decide) (by decide)).1,
   (reinsert_after_erase_order hId 0 1 2 3 10 20 30 99
      (by decide) (by decide) (by decide)).2.1⟩

/-- C10: the copy constructor (and copy assignment between distinct
containers) rebuilds the container by re-inserting every source entry in
source insertion order into fresh storage, yielding identical entries,
values and iteration order under the new container's own identity; since
maps are modelled as pure values, no mutation of the copy can be seen
through the source or vice versa; self-assignment (this == &other,
i.e. same container identity) is a no-op. -/
theorem copy_deep_equal_and_self_assign (h : Nat → Nat) (other m : LHM)
    (cid : Nat) (hwf : WF h other) (hne : m.cid ≠ other.cid) :
    entriesOf (copyCtor h other cid) = entriesOf other ∧
    keysOf (copyCtor h other cid) = keysOf other ∧
    (copyCtor h other cid).cid = cid ∧
    WF h (copyCtor h other cid) ∧
    assign h m m = m ∧
    assign h m other = copyCtor h other m.cid ∧
    entriesOf (assign h m other) = entriesOf other ∧
    (assign h m other).cid = m.cid := by
  have hnd : ((entriesOf other).map Prod.fst).Nodup := by
    rw [entriesOf_fst]
    exact hwf.keys_nodup
  have key : ∀ c : Nat, entriesOf (copyCtor h other c) = entriesOf other ∧
      (copyCtor h other c).cid = c ∧ WF h (copyCtor h other c) := by
    intro c
    have hwfE : WF h (emptyWithCap other.bucket_capacity c) :=
      emptyWithCap_wf h _ c hwf.cap_pos
    have hfresh : ∀ k ∈ (entriesOf other).map Prod.fst,
        k ∉ keysOf (emptyWithCap other.bucket_capacity c) := by
      intro k _ hk
      simp [keysOf, emptyWithCap] at hk
    rcases insertList_spec h (entriesOf other)
      (emptyWithCap other.bucket_capacity c) hwfE hnd hfresh with
      ⟨w, hent, hcid, _, _, _⟩
    refine ⟨?_, ?_, w⟩
    · rw [copyCtor, hent]
      rw [show entriesOf (emptyWithCap other.bucket_capacity c) = [] from rfl]
      exact List.nil_append _
    · rw [copyCtor, hcid]
      rfl
  rcases key cid with ⟨e1, c1, w1⟩
  rcases key m.cid with ⟨e2, c2, _⟩
  have ha : assign h m other = copyCtor h other m.cid := by
    rw [assign, if_neg hne]
  refine ⟨e1, ?_, c1, w1, by simp [assign], ha, by rw [ha]; exact e2,
    by rw [ha]; exact c2⟩
  rw [← entriesOf_fst, e1, entriesOf_fst]

/-- Witness for C10: copying M1 into a container of identity 5, and
self-assigning a distinct map. -/
theorem copy_deep_equal_and_self_assign_witness :
    entriesOf (copyCtor hId M1 5) = entriesOf M1 ∧
    assign hId (emptyMap 1) (emptyMap 1) = emptyMap 1 ∧
    entriesOf (assign hId (emptyMap 1) M1) = entriesOf M1 :=
  ⟨(copy_deep_equal_and_self_assign hId M1 (emptyMap 1) 5 M1_wf
      (by decide)).1,
   (copy_deep_equal_and_self_assign hId M1 (emptyMap 1) 5 M1_wf
      (by decide)).2.2.2.2.1,
   (copy_deep_equal_and_self_assign hId M1 (emptyMap 1) 5 M1_wf
      (by decide)).2.2.2.2.2.2.1⟩

end LinkedHashmap
